import Mathlib

/-!
Verification of the `oa_ontology` documentation-fusion pipeline

A shallow embedding of the core string processing, cross-source fusion,
attribute/relationship inference, domain classification and graph building
logic of the `oa_ontology` repository, together with theorems settling the
frozen specification claims.

Python strings are modelled as `String` (with the character-list view
`String.data` used by the recursive workers); Python dictionaries become
association lists preserving insertion order; Python's distinction between
a missing key and a present value is modelled with `Option` where the code
observes it.  Python truthiness on strings identifies the empty string with
"absent"; where the source uses `.get(key, default)` the embedding uses an
`Option` field with `getD`.
-/

set_option autoImplicit false

namespace OaOntology

/-! Character classes (ASCII fragment of Python `\s`, `\w`, `str.strip`) -/

/-- Whitespace characters recognised by Python's `\s` and `str.strip`
(ASCII fragment: space, tab, newline, carriage return, vertical tab,
form feed). -/
def pySpace (c : Char) : Bool :=
  c = ' ' || c = '\t' || c = '\n' || c = '\r' || c = Char.ofNat 11 || c = Char.ofNat 12

/-- Word characters recognised by Python's `\w` (ASCII fragment). -/
def pyWord (c : Char) : Bool :=
  ('a' ≤ c && c ≤ 'z') || ('A' ≤ c && c ≤ 'Z') || ('0' ≤ c && c ≤ '9') || c = '_'

/-- ASCII upper-case letter, as matched by `[A-Z]`. -/
def pyUpper (c : Char) : Bool :=
  'A' ≤ c && c ≤ 'Z'

/-- ASCII letter or digit, as matched by `[a-zA-Z0-9]`. -/
def pyAlnum (c : Char) : Bool :=
  ('a' ≤ c && c ≤ 'z') || ('A' ≤ c && c ≤ 'Z') || ('0' ≤ c && c ≤ '9')

/-! Substring search: Python's `in` operator on strings -/

/-- `containsSub p s` is Python's `p in s` (substring containment) on
character lists. -/
def containsSub (p : List Char) : List Char → Bool
  | [] => p.isEmpty
  | c :: cs => p.isPrefixOf (c :: cs) || containsSub p cs

/-- Python `p in s` on `String`. -/
def pyIn (p s : String) : Bool :=
  containsSub p.data s.data

/-- Python `s.startswith(pre)` on `String`. -/
def pyStartsWith (pre s : String) : Bool :=
  pre.data.isPrefixOf s.data

/-! `str.replace` and literal-pattern `re.sub(pat, repl, s)`

Python replaces non-overlapping occurrences left to right, continuing the
scan immediately after each replaced occurrence of the pattern (the
replacement text itself is never rescanned).  The worker recurses on a fuel
argument initialised to the length of the subject, which bounds the number
of recursive steps. -/

/-- Worker for `replaceAll`; `fuel ≥ s.length` always suffices. -/
def replaceAllF (p r : List Char) : Nat → List Char → List Char
  | _, [] => []
  | 0, s => s
  | fuel + 1, c :: cs =>
    if p ≠ [] ∧ p.isPrefixOf (c :: cs) then
      r ++ replaceAllF p r fuel ((c :: cs).drop p.length)
    else
      c :: replaceAllF p r fuel cs

/-- Replace every (non-overlapping, leftmost-first) occurrence of `p` by
`r`: Python's `s.replace(p, r)`, also `re.sub` for a literal pattern. -/
def replaceAll (p r s : List Char) : List Char :=
  replaceAllF p r s.length s

/-- Python `s.replace(p, r)` on `String`. -/
def pyReplace (s p r : String) : String :=
  ⟨replaceAll p.data r.data s.data⟩

/-! Whitespace collapse: `re.sub(r'\s+', ' ', s)` -/

/-- Worker: `prevSpace` records whether the previous character of the
subject belonged to a whitespace run that has already emitted its single
space. -/
def collapseWsAux : Bool → List Char → List Char
  | _, [] => []
  | prevSpace, c :: cs =>
    if pySpace c then
      if prevSpace then collapseWsAux true cs
      else ' ' :: collapseWsAux true cs
    else
      c :: collapseWsAux false cs

/-- `re.sub(r'\s+', ' ', s)`: each maximal whitespace run becomes one
space. -/
def collapseWs (s : List Char) : List Char :=
  collapseWsAux false s

/-- Invariant characterising outputs of `collapseWsAux`: every whitespace
character is a plain space, and no space directly follows another (nor,
when `prevSpace` is set, the start). -/
def wsOk : Bool → List Char → Bool
  | _, [] => true
  | prevSpace, c :: cs =>
    if pySpace c then (c = ' ') && !prevSpace && wsOk true cs
    else wsOk false cs

/-! `str.strip()` -/

/-- Remove a trailing whitespace run. -/
def dropTrail : List Char → List Char
  | [] => []
  | c :: cs =>
    match dropTrail cs with
    | [] => if pySpace c then [] else [c]
    | r => c :: r

/-- Python `s.strip()`: remove leading and trailing whitespace. -/
def pyStripL (s : List Char) : List Char :=
  dropTrail (s.dropWhile pySpace)

/-- Python `s.strip()` on `String`. -/
def pyStrip (s : String) : String :=
  ⟨pyStripL s.data⟩

/-! Python truthiness for optional strings (`if not s: ...`): absent keys and
empty strings are both falsy. -/

/-- Truthiness of an optional string value. -/
def pyTruthyO : Option String → Bool
  | none => false
  | some s => s ≠ ""

/-! Ordered association lists standing in for Python `dict` (insertion
order preserved; assigning to an existing key keeps its position). -/

/-- `d[k] = v` on an insertion-ordered association list. -/
def upsert {α : Type} : List (String × α) → String → α → List (String × α)
  | [], k, v => [(k, v)]
  | (k', v') :: rest, k, v =>
    if k' = k then (k', v) :: rest else (k', v') :: upsert rest k v

/-- Build the `dict` obtained by assigning the pairs in order. -/
def dictOfList {α : Type} (l : List (String × α)) : List (String × α) :=
  l.foldl (fun acc kv => upsert acc kv.1 kv.2) []

/-- Replace the element at an index, leaving other positions untouched
(mirrors mutating one dict object held both in a list and in a lookup
map). -/
def modifyAt {α : Type} (f : α → α) : Nat → List α → List α
  | _, [] => []
  | 0, x :: xs => f x :: xs
  | n + 1, x :: xs => x :: modifyAt f n xs

/-- Lexicographic (code-point) comparison of character lists: Python's
`<=` on strings, as used by `sorted(..., key=...)`. -/
def leChars : List Char → List Char → Bool
  | [], _ => true
  | _ :: _, [] => false
  | a :: as, b :: bs => if a = b then leChars as bs else decide (a < b)

namespace Crossref

/-!
Embedding of `oa_ontology/crossref_api_uml.py` (class `UMLAPIXReferencer`):
the Method Merge Engine (`merge_methods`), the Cross-Source Fusion Engine
(`merge_class_info` / `process_class`), the Attribute Inference Engine
(`infer_attributes_from_methods`) and the Symbol Record Normalizer
(`clean_description`).  File loading (`load_api_class`, `load_uml_class`)
is out of scope; the loaded values are taken as parameters.
-/

/-- A method record (Python dict).  `none` models an absent key; the
fields are exactly those read or written by the embedded code
(`parameters`/`static` are carried through unread and omitted). -/
structure PyMethod where
  name : Option String
  return_type : Option String
  signature : Option String
  description : Option String
  source : Option String
  deriving Repr, DecidableEq

/-- An attribute record (Python dict), as produced by the UML parser or by
attribute inference.  `none` models an absent key. -/
structure PyAttr where
  name : Option String
  type : Option String
  description : Option String
  inferred : Option Bool
  deriving Repr, DecidableEq

/-- A relationship statement as stored in the UML imagemap JSON and
carried through cross-referencing.  `member` and `description` are read
with `.get(key, '')`. -/
structure Rel where
  source : Option String
  target : Option String
  rtype : Option String
  member : Option String
  description : Option String
  deriving Repr, DecidableEq

/-- An API documentation record (`classoaX.yaml`), as read by
`merge_class_info`. -/
structure ApiInfo where
  description : Option String
  inheritance : List String
  methods : List PyMethod
  enumerations : List (String × List String)
  deriving Repr, DecidableEq

/-- A UML class record from an imagemap JSON.  The cross-referencer reads
only `methods` and `attributes`; a `description` key may be present in the
dict (the record is passed through from arbitrary JSON) but is never
consulted by `merge_class_info`. -/
structure UmlInfo where
  methods : List PyMethod
  attributes : List PyAttr
  description : Option String
  deriving Repr, DecidableEq

/-- The merged symbol record written by `merge_class_info` /
`process_class` (the `sources` sub-dict is flattened into `has_api` and
`uml_sources`). -/
structure MergedInfo where
  name : String
  description : String
  module : String
  inheritance : List String
  methods : List PyMethod
  attributes : List PyAttr
  relationships : List Rel
  enumerations : List (String × List String)
  has_api : Bool
  uml_sources : List String
  deriving Repr, DecidableEq

/-! Return-type normalisation in `merge_methods`:
`re.sub(r'(\w)\*', r'\1 *', rt)` then `re.sub(r'\*\s+', '*', rt)`. -/

/-- `re.sub(r'(\w)\*', r'\1 *', s)`: put a space between a word character
and a following `*`. -/
def subWordStar : List Char → List Char
  | [] => []
  | [c] => [c]
  | c :: d :: cs =>
    if pyWord c && d = '*' then c :: ' ' :: '*' :: subWordStar cs
    else c :: subWordStar (d :: cs)

/-- Worker for `subStarSpace`: in skip mode the whitespace run belonging
to the current match is being consumed. -/
def subStarSpaceAux : Bool → List Char → List Char
  | _, [] => []
  | skip, c :: cs =>
    if skip && pySpace c then subStarSpaceAux true cs
    else if c = '*' && (match cs with | d :: _ => pySpace d | [] => false) then
      '*' :: subStarSpaceAux true cs
    else c :: subStarSpaceAux false cs

/-- `re.sub(r'\*\s+', '*', s)`: delete whitespace directly after a `*`. -/
def subStarSpace (s : List Char) : List Char :=
  subStarSpaceAux false s

/-- The return-type clean-up applied to both API and UML methods in
`merge_methods`. -/
def normalizeReturnType (rt : String) : String :=
  ⟨subStarSpace (subWordStar rt.data)⟩

/-- Apply the return-type clean-up to a method record: only a truthy
(non-empty, present) `return_type` is rewritten. -/
def normalizeMethodRT (m : PyMethod) : PyMethod :=
  let rt := m.return_type.getD ""
  if rt ≠ "" then { m with return_type := some (normalizeReturnType rt) } else m

/-- `f"{method_name}|{method.get('signature', method_name + '()')}"`: the
deduplication key of a method entry. -/
def methodKey (m : PyMethod) : String :=
  let n := m.name.getD ""
  n ++ "|" ++ m.signature.getD (n ++ "()")

/-- State of `merge_methods`: the `merged_methods` list plus the
`method_map` dictionary, which holds for each key the index of the list
cell that the Python dict aliases (always the most recently inserted entry
with that key). -/
structure MergeState where
  merged : List PyMethod
  kmap : List (String × Nat)
  deriving Repr

/-- An API method after clean-up, tagged with its provenance
(`method['source'] = 'api'`). -/
def apiTagged (m : PyMethod) : PyMethod :=
  { normalizeMethodRT m with source := some "api" }

/-- A UML method after clean-up, tagged with its provenance on insertion
(`method['source'] = 'uml'`). -/
def umlTagged (m : PyMethod) : PyMethod :=
  { m with source := some "uml" }

/-- The in-place mutation applied to an already-merged entry when a UML
method with the same key arrives: provenance becomes `both`, and the UML
description is copied only when the entry lacks one. -/
def umlUpdate (m' : PyMethod) (ex : PyMethod) : PyMethod :=
  { ex with
    source := some "both",
    description :=
      if !pyTruthyO ex.description && pyTruthyO m'.description then m'.description
      else ex.description }

/-- Process one API method (first loop of `merge_methods`). -/
def mergeApiStep (st : MergeState) (m : PyMethod) : MergeState :=
  if m.name.getD "" = "" then st
  else
    { merged := st.merged ++ [apiTagged m],
      kmap := upsert st.kmap (methodKey (apiTagged m)) st.merged.length }

/-- Process one UML method (second loop of `merge_methods`): an existing
key upgrades the aliased entry's provenance to `both` and copies the UML
description only if the entry lacks one; a new key is inserted tagged
`uml`. -/
def mergeUmlStep (st : MergeState) (m : PyMethod) : MergeState :=
  if m.name.getD "" = "" then st
  else
    match st.kmap.lookup (methodKey (normalizeMethodRT m)) with
    | some idx =>
      { st with
        merged := modifyAt (umlUpdate (normalizeMethodRT m)) idx st.merged }
    | none =>
      { merged := st.merged ++ [umlTagged (normalizeMethodRT m)],
        kmap := upsert st.kmap (methodKey (normalizeMethodRT m)) st.merged.length }

/-- Stable insertion keeping entries with equal names in encounter order
(Python's `sorted` is stable). -/
def insertByName (m : PyMethod) : List PyMethod → List PyMethod
  | [] => [m]
  | x :: xs =>
    if leChars (m.name.getD "").data (x.name.getD "").data then m :: x :: xs
    else x :: insertByName m xs

/-- `sorted(merged_methods, key=lambda m: m.get('name', ''))`. -/
def sortByName (l : List PyMethod) : List PyMethod :=
  l.foldr insertByName []

/-- `UMLAPIXReferencer.merge_methods`: merge the API and UML method lists
of one symbol into a provenance-tagged list sorted by name. -/
def merge_methods (api_methods uml_methods : List PyMethod) : List PyMethod :=
  let st0 : MergeState := { merged := [], kmap := [] }
  let st1 := api_methods.foldl mergeApiStep st0
  let st2 := uml_methods.foldl mergeUmlStep st1
  sortByName st2.merged

/-- `UMLAPIXReferencer.merge_class_info`, with the loaded inputs taken as
parameters: `api`/`module` are the result of `load_api_class`, and
`uml`/`relationships`/`uml_sources` the result of `load_uml_class`. -/
def merge_class_info (class_name : String) (api : Option ApiInfo)
    (module : Option String) (uml : Option UmlInfo)
    (relationships : List Rel) (uml_sources : List String) :
    Option MergedInfo :=
  match api, uml with
  | none, none => none
  | _, _ =>
    some
      { name := class_name
        description :=
          match api with
          | some a => a.description.getD ""
          | none => ""
        module :=
          match module with
          | some m => if m ≠ "" then m else "unknown"
          | none => "unknown"
        inheritance := match api with | some a => a.inheritance | none => []
        methods :=
          merge_methods (match api with | some a => a.methods | none => [])
            (match uml with | some u => u.methods | none => [])
        attributes := match uml with | some u => u.attributes | none => []
        relationships := relationships
        enumerations := match api with | some a => a.enumerations | none => []
        has_api := api.isSome
        uml_sources := uml_sources }

/-! Attribute inference (`infer_attributes_from_methods`). -/

/-- Full anchored match `^pre([A-Z]\w+)$`, returning the captured group
(one upper-case letter followed by at least one word character, consuming
the whole string). -/
def matchAccessor (pre : List Char) (s : List Char) : Option (List Char) :=
  if pre.isPrefixOf s then
    match s.drop pre.length with
    | c :: rest =>
      if pyUpper c && !rest.isEmpty && rest.all pyWord then some (c :: rest)
      else none
    | [] => none
  else none

/-- Lower-case the first character of an inferred attribute name. -/
def lowerFirst (g : List Char) : String :=
  match g with
  | [] => ""
  | c :: rest => ⟨Char.toLower c :: rest⟩

/-- Process one method of the attribute-inference loop, threading the
`attributes_map` dictionary. -/
def inferStep (amap : List (String × PyAttr)) (m : PyMethod) :
    List (String × PyAttr) :=
  let method_name := m.name.getD ""
  let return_type := m.return_type.getD ""
  if method_name = "" || return_type = "" then amap
  else
    -- getter pattern `^get([A-Z]\w+)$`
    let amap :=
      match matchAccessor ("get").data method_name.data with
      | some g =>
        let attr_name := lowerFirst g
        if (amap.map Prod.fst).contains attr_name then
          if (((amap.lookup attr_name).bind PyAttr.type) = none) && return_type ≠ "" then
            upsert amap attr_name
              (match amap.lookup attr_name with
               | some a => { a with type := some return_type }
               | none => { name := some attr_name, type := some return_type,
                           description := none, inferred := none })
          else amap
        else
          upsert amap attr_name
            { name := some attr_name
              type := some return_type
              description := some (("Inferred from getter method ") ++ method_name)
              inferred := some true }
      | none => amap
    -- boolean patterns `^is([A-Z]\w+)$` / `^has([A-Z]\w+)$`
    let isM := matchAccessor ("is").data method_name.data
    let hasM := matchAccessor ("has").data method_name.data
    match isM.orElse (fun _ => hasM) with
    | some g =>
      let attr_name := lowerFirst g
      if (amap.map Prod.fst).contains attr_name then amap
      else
        upsert amap attr_name
          { name := some attr_name
            type := some "oaBoolean"
            description :=
              some (("Inferred from ") ++ (if isM.isSome then "is" else "has") ++
                (" method ") ++ method_name)
            inferred := some true }
    | none => amap

/-- `UMLAPIXReferencer.infer_attributes_from_methods`: derive implicit
attributes from accessor-shaped method names and append them to the
declared attributes. -/
def infer_attributes_from_methods (mi : MergedInfo) : MergedInfo :=
  let amap0 :=
    mi.attributes.foldl (fun acc a =>
      match a.name with
      | some n => if n ≠ "" then upsert acc n a else acc
      | none => acc) []
  let amap := mi.methods.foldl inferStep amap0
  { mi with attributes := amap.map Prod.snd }

/-! Description clean-up (`clean_description`). -/

/-- `'Copyright '`, the literal head of the copyright scrub pattern. -/
def crHead : List Char := ("Copyright ").data

/-- `' Cadence Design Systems, Inc.'`, the literal tail of the copyright
scrub pattern. -/
def crTail : List Char := (" Cadence Design Systems, Inc.").data

/-- Greedy match of `.* Cadence Design Systems, Inc\.` against `t`
(longest newline-free stretch followed by the literal tail), returning the
remainder after the match. -/
def greedyTail (t : List Char) : Option (List Char) :=
  ((List.range (t.length + 1)).reverse.find? fun k =>
      crTail.isPrefixOf (t.drop k) && !((t.take k).contains ('\n'))).map
    fun k => t.drop (k + crTail.length)

/-- Worker for the copyright scrub; `fuel ≥ s.length` always suffices. -/
def copyrightScrubF : Nat → List Char → List Char
  | _, [] => []
  | 0, s => s
  | fuel + 1, c :: cs =>
    if crHead.isPrefixOf (c :: cs) then
      match greedyTail ((c :: cs).drop crHead.length) with
      | some rest => copyrightScrubF fuel rest
      | none => c :: copyrightScrubF fuel cs
    else c :: copyrightScrubF fuel cs

/-- `re.sub(r'Copyright .* Cadence Design Systems, Inc\.', '', s)`. -/
def copyrightScrub (s : List Char) : List Char :=
  copyrightScrubF s.length s

/-- Delete every occurrence of a literal scrub pattern
(`re.sub(pattern, '', s)` for a pattern without metacharacters). -/
def scrub (p : String) (s : List Char) : List Char :=
  replaceAll p.data [] s

/-- `UMLAPIXReferencer.clean_description`: collapse whitespace, delete the
noise patterns in their listed order, fix HTML entities, then strip. -/
def clean_description (description : String) : String :=
  if description = "" then ""
  else
    let d := collapseWs description.data
    let d := scrub ("Member Function Documentation") d
    let d := scrub ("Member Data Documentation") d
    let d := scrub ("Protected Member Functions") d
    let d := scrub ("Protected Attributes") d
    let d := scrub ("Return to top of page") d
    let d := copyrightScrub d
    let d := scrub ("All Rights Reserved.") d
    let d := scrub ("The documentation for this class was generated from the following file") d
    let d := replaceAll ("&lt;").data ("<").data d
    let d := replaceAll ("&gt;").data (">").data d
    let d := replaceAll ("&amp;").data ("&").data d
    ⟨pyStripL d⟩

/-- `UMLAPIXReferencer.process_class`, with the loaded per-class inputs
taken as parameters (output-file writing omitted): merge, clean the
description, infer attributes. -/
def process_class (class_name : String) (api : Option ApiInfo)
    (module : Option String) (uml : Option UmlInfo)
    (relationships : List Rel) (uml_sources : List String) :
    Option MergedInfo :=
  match merge_class_info class_name api module uml relationships uml_sources with
  | none => none
  | some mi =>
    some (infer_attributes_from_methods
      { mi with description := clean_description mi.description })

end Crossref

namespace Enhanced

/-!
Embedding of `oa_ontology/enhanced_domain_ontology.py`: the Domain
Classifier (`extract_domain_type`), node description clean-up
(`clean_description`) and the Ontology Graph Builder
(`build_enhanced_domain_ontology`), which consumes the merged symbol
records written by the cross-referencer.  File loading
(`load_crossreferenced_data`) reduces to building an insertion-ordered
dictionary keyed by class name; the summary counters returned alongside
the graph are not modelled.
-/

/-- The fixed `DOMAIN_CONCEPTS` table, in source order (`dict` literals
iterate in insertion order). -/
def DOMAIN_CONCEPTS : List (String × List String) :=
  [("Physical",
    ["Block", "Fig", "Shape", "Rect", "Path", "Via", "Pin", "Text", "Layer", "Design"]),
   ("Connectivity",
    ["Net", "Term", "InstTerm", "Conn", "Route", "Guide", "Pin"]),
   ("Hierarchy",
    ["Module", "Design", "Block", "Inst", "ScalarInst", "VectorInst", "ArrayInst",
     "Occurrence"]),
   ("Layout",
    ["Row", "Site", "Track", "GCell", "Boundary", "Blockage", "Halo", "Core"]),
   ("Device",
    ["Device", "Resistor", "Capacitor", "Inductor", "Diode", "Transistor"])]

/-- The `UML_TO_DOMAIN` relationship-type mapping. -/
def UML_TO_DOMAIN : List (String × String) :=
  [("inheritance", "SPECIALIZES"),
   ("aggregation-many", "CONTAINS_MANY"),
   ("aggregation-single", "CONTAINS_ONE"),
   ("association-reference", "REFERENCES"),
   ("association-many", "ASSOCIATED_WITH_MANY"),
   ("association", "ASSOCIATED_WITH"),
   ("composition", "COMPOSED_OF"),
   ("usage", "USES")]

/-- The nested first-match loop of `extract_domain_type` over a
domain-concepts table. -/
def findDomain : List (String × List String) → String → String × String
  | [], _ => ("Other", "Unknown")
  | (d, cs) :: rest, base =>
    match cs.find? (fun c => pyIn c base) with
    | some c => (d, c)
    | none => findDomain rest base

/-- `extract_domain_type`: strip every occurrence of `oa`, `Mod` and
`Occ` from the class name, then return the first table entry whose
concept keyword is a substring of the stripped name (identical code in
`enhanced_domain_ontology.py` and `extract_domain_ontology.py`). -/
def extract_domain_type (class_name : String) : String × String :=
  let base_name :=
    pyReplace (pyReplace (pyReplace class_name ("oa") ("")) ("Mod") ("")) ("Occ") ("")
  findDomain DOMAIN_CONCEPTS base_name

/-- `clean_description(description, max_length)` of
`enhanced_domain_ontology.py` (also, verbatim, of
`extract_domain_ontology.py`): collapse whitespace, strip, and truncate a
result longer than `max_length` to its first `max_length - 3` characters
plus `"..."`.  Every caller uses the default `max_length=200`, passed
explicitly here. -/
def clean_description (description : String) (max_length : Nat) : String :=
  if description = "" then ""
  else
    let desc := pyStripL (collapseWs description.data)
    if desc.length > max_length then ⟨desc.take (max_length - 3) ++ ("...").data⟩
    else ⟨desc⟩

/-- Node attributes set by the builder's first pass. -/
structure ENode where
  label : String
  ntype : String
  domain : String
  concept : String
  description : String
  methods_count : Nat
  deriving Repr, DecidableEq

/-- Edge attributes set by `add_edge` (both call sites supply exactly the
keys `type`, `description`, `member`, `source`; the `source` attribute is
the provenance tag, renamed `rsource` to avoid clashing with the edge's
source endpoint). -/
structure ERel where
  rtype : String
  description : String
  member : String
  rsource : String
  deriving Repr, DecidableEq

/-- A `networkx.DiGraph`: insertion-ordered nodes and edges.  A node
added implicitly by `add_edge` carries no attributes (`none`); an edge is
keyed by its `(source, target)` endpoint pair only. -/
structure EGraph where
  nodes : List (String × Option ENode)
  edges : List (String × String × ERel)
  deriving Repr, DecidableEq

/-- Node membership (`name in graph`). -/
def hasNode (g : EGraph) (n : String) : Bool :=
  (g.nodes.map Prod.fst).contains n

/-- `add_node(name, **attrs)`: update the attributes in place if the node
exists, else append it. -/
def addNode (g : EGraph) (name : String) (a : ENode) : EGraph :=
  if hasNode g name then
    { g with nodes := g.nodes.map fun kv => if kv.1 = name then (kv.1, some a) else kv }
  else
    { g with nodes := g.nodes ++ [(name, some a)] }

/-- Append the node without attributes if absent (the implicit node
creation performed by `add_edge`). -/
def ensureNode (g : EGraph) (name : String) : EGraph :=
  if hasNode g name then g else { g with nodes := g.nodes ++ [(name, none)] }

/-- `add_edge(u, v, **attrs)` on a `DiGraph`: create missing endpoint
nodes, then update the attributes of the existing `(u, v)` edge in place,
or append a new edge.  Both call sites supply the full attribute set, so
an update replaces all four attributes. -/
def addEdge (g : EGraph) (u v : String) (a : ERel) : EGraph :=
  { nodes := (ensureNode (ensureNode g u) v).nodes
    edges :=
      if (g.edges.map fun e => (e.1, e.2.1)).contains (u, v) then
        g.edges.map fun e => if e.1 = u ∧ e.2.1 = v then (u, v, a) else e
      else g.edges ++ [(u, v, a)] }

/-- The node-name list of the graph, in insertion order. -/
def nodeNames (g : EGraph) : List String :=
  g.nodes.map Prod.fst

/-- The `(source, target)` endpoint keys of the edges, in insertion
order. -/
def edgeKeys (g : EGraph) : List (String × String) :=
  g.edges.map fun e => (e.1, e.2.1)

/-- No edge has an endpoint absent from the node set. -/
def edgeEndsOK (g : EGraph) : Prop :=
  ∀ e ∈ g.edges, e.1 ∈ nodeNames g ∧ e.2.1 ∈ nodeNames g

/-- `UML_TO_DOMAIN.get(rel_type, "RELATED_TO")` (the key may be absent or
the relationship may lack a `type`). -/
def umlToDomain (t : Option String) : String :=
  match t with
  | some ty => (UML_TO_DOMAIN.lookup ty).getD ("RELATED_TO")
  | none => "RELATED_TO"

/-- `re.match(r'get([A-Z][a-zA-Z0-9]*)', method_name)` followed by
lower-casing the first letter of the captured group; `""` when the
anchored match fails. -/
def getMemberName (mn : String) : String :=
  match mn.data with
  | 'g' :: 'e' :: 't' :: c :: rest =>
    if pyUpper c then ⟨Char.toLower c :: rest.takeWhile pyAlnum⟩ else ""
  | _ => ""

/-- `method_name.endswith('s')`. -/
def endsWithS (mn : String) : Bool :=
  mn.data.getLast? = some ('s')

/-- First pass of `build_enhanced_domain_ontology`: one classified node
per merged symbol. -/
def addClassNode (g : EGraph) (class_name : String) (data : Crossref.MergedInfo) :
    EGraph :=
  let dc := extract_domain_type class_name
  addNode g class_name
    { label := pyReplace class_name ("oa") ("")
      ntype := "Class"
      domain := dc.1
      concept := dc.2
      description := clean_description data.description 200
      methods_count := data.methods.length }

/-- Second pass, UML part: add one edge per relationship statement whose
endpoints both resolve to nodes; a statement with a missing or unresolved
endpoint is skipped. -/
def addUmlRel (g : EGraph) (rel : Crossref.Rel) : EGraph :=
  match rel.source, rel.target with
  | some src, some tgt =>
    if hasNode g src && hasNode g tgt then
      addEdge g src tgt
        { rtype := umlToDomain rel.rtype
          description := rel.description.getD ""
          member := rel.member.getD ""
          rsource := "uml" }
    else g
  | _, _ => g

/-- Second pass, inference part: a getter whose return type mentions `oa`
and a `*` yields a containment edge to the node named by the cleaned
return type, unless an out-edge of the class with the same member name
already exists. -/
def addInferredRel (class_name : String) (g : EGraph) (m : Crossref.PyMethod) :
    EGraph :=
  let method_name := m.name.getD ""
  let return_type := m.return_type.getD ""
  if pyStartsWith ("get") method_name && return_type ≠ "" &&
      pyIn ("oa") return_type && pyIn ("*") return_type then
    let target_class := pyStrip (pyReplace return_type ("*") (""))
    if !hasNode g target_class then g
    else
      let rel_type :=
        if pyIn ("Collection") return_type || endsWithS method_name then
          "CONTAINS_MANY"
        else "CONTAINS_ONE"
      let member := getMemberName method_name
      let has_existing :=
        g.edges.any fun e => e.1 = class_name && e.2.2.member = member
      if has_existing then g
      else
        addEdge g class_name target_class
          { rtype := rel_type
            description := ("Inferred from method ") ++ method_name
            member := member
            rsource := "api_inferred" }
  else g

/-- Second pass of `build_enhanced_domain_ontology` for one symbol: UML
relationship statements, then method-based inference (the latter only when
the symbol has methods and is a node). -/
def addClassRels (g : EGraph) (class_name : String) (data : Crossref.MergedInfo) :
    EGraph :=
  if !hasNode g class_name then g
  else
    let g := data.relationships.foldl addUmlRel g
    if data.methods.length > 0 && hasNode g class_name then
      data.methods.foldl (addInferredRel class_name) g
    else g

/-- `build_enhanced_domain_ontology` (graph component): nodes for every
merged symbol, then UML and inferred relationship edges.  The input list
stands for the per-class JSON files; loading them builds a dictionary
keyed by class name. -/
def build_enhanced_domain_ontology (crossref : List (String × Crossref.MergedInfo)) :
    EGraph :=
  let crossref_data := dictOfList crossref
  let g1 := crossref_data.foldl (fun g kv => addClassNode g kv.1 kv.2)
    { nodes := [], edges := [] }
  crossref_data.foldl (fun g kv => addClassRels g kv.1 kv.2) g1

end Enhanced

namespace DomainX

/-!
Embedding of `oa_ontology/extract_domain_ontology.py`
(`build_domain_ontology` and its helpers).  The YAML files are taken as a
list of already-parsed records; `extract_domain_type` and
`clean_description` are byte-identical to the copies in
`enhanced_domain_ontology.py` and are shared (`Enhanced.extract_domain_type`,
`Enhanced.clean_description`).
-/

/-- A method entry of a YAML class record; all three fields are read with
`.get(key, '')`. -/
structure YMethod where
  name : Option String
  return_type : Option String
  signature : Option String
  deriving Repr, DecidableEq

/-- A parsed YAML class record.  `methods` is `none` when the `methods`
key is absent (the second pass tests `'methods' not in data`). -/
structure YRecord where
  name : Option String
  description : String
  methods : Option (List YMethod)
  inheritance : List String
  deriving Repr, DecidableEq

/-- Node attributes of the domain graph (`type`, `domain`, `concept`,
`description`, `methods_count`). -/
structure DNode where
  dtype : String
  domain : String
  concept : String
  description : String
  methods_count : Nat
  deriving Repr, DecidableEq

/-- Edge attributes of the domain graph: the second pass supplies
`type`, `weight`, `method`, `concept`; the third pass supplies only
`type` and `weight` (the other two keys absent). -/
structure DEdge where
  dtype : String
  weight : Nat
  method : Option String
  concept : Option String
  deriving Repr, DecidableEq

/-- The domain `networkx.DiGraph`, modelled like `Enhanced.EGraph`. -/
structure DGraph where
  nodes : List (String × Option DNode)
  edges : List (String × String × DEdge)
  deriving Repr, DecidableEq

/-- The software graph: class nodes plus `INHERITS_FROM` edges (the only
edge type ever added); node attributes are never read back. -/
structure SWGraph where
  nodes : List String
  edges : List (String × String × String)
  deriving Repr, DecidableEq

/-- Node membership in the domain graph. -/
def hasNode (g : DGraph) (n : String) : Bool :=
  (g.nodes.map Prod.fst).contains n

/-- Edge membership (`has_edge`) in the domain graph. -/
def hasEdge (g : DGraph) (u v : String) : Bool :=
  (g.edges.map fun e => (e.1, e.2.1)).contains (u, v)

/-- `add_node` with attributes on the domain graph. -/
def addNode (g : DGraph) (name : String) (a : DNode) : DGraph :=
  if hasNode g name then
    { g with nodes := g.nodes.map fun kv => if kv.1 = name then (kv.1, some a) else kv }
  else
    { g with nodes := g.nodes ++ [(name, some a)] }

/-- Implicit attribute-less node creation by `add_edge`. -/
def ensureNode (g : DGraph) (name : String) : DGraph :=
  if hasNode g name then g else { g with nodes := g.nodes ++ [(name, none)] }

/-- `add_edge` on the domain graph (update-or-append, keyed by the
endpoint pair). -/
def addEdge (g : DGraph) (u v : String) (a : DEdge) : DGraph :=
  { nodes := (ensureNode (ensureNode g u) v).nodes
    edges :=
      if hasEdge g u v then
        g.edges.map fun e => if e.1 = u ∧ e.2.1 = v then (u, v, a) else e
      else g.edges ++ [(u, v, a)] }

/-- `add_node` on the software graph (attributes unmodelled). -/
def swAddNode (sw : SWGraph) (name : String) : SWGraph :=
  if sw.nodes.contains name then sw else { sw with nodes := sw.nodes ++ [name] }

/-- `add_edge(u, v, type='INHERITS_FROM')` on the software graph. -/
def swAddEdge (sw : SWGraph) (u v : String) : SWGraph :=
  { nodes := (swAddNode (swAddNode sw u) v).nodes
    edges :=
      if (sw.edges.map fun e => (e.1, e.2.1)).contains (u, v) then
        sw.edges.map fun e =>
          if e.1 = u ∧ e.2.1 = v then (u, v, ("INHERITS_FROM")) else e
      else sw.edges ++ [(u, v, ("INHERITS_FROM"))] }

/-- `networkx` edge iteration order: for each node in insertion order, its
out-edges in insertion order. -/
def swEdgesGrouped (sw : SWGraph) : List (String × String × String) :=
  sw.nodes.foldl (fun acc u => acc ++ sw.edges.filter fun e => e.1 = u) []

/-- The fixed `DOMAIN_RELATIONSHIPS` table.  Each regex of the source is
an alternation of literals with substring-search semantics
(`re.search`), so a pattern is represented by the list of literal
alternatives (with the `get`/`is` head folded in for the method pattern);
the empty list represents the empty target pattern `r""`, which the code
treats as "no target constraint". -/
def DOMAIN_RELATIONSHIPS :
    List (List String × List String × List String × String × Nat) :=
  [(["Inst", "Array"], ["getTerm", "getNet"], ["Term", "Net"], "CONNECTS_TO", 5),
   (["Net"], ["getTerm", "getInstTerm", "getPin", "getShape", "getFig", "getVia"],
    ["Term", "InstTerm", "Pin", "Shape", "Fig", "Via"], "CONNECTS", 5),
   (["Block"], ["getNet", "getInst", "getTerm", "getFig", "getShape"],
    ["Net", "Inst", "Term", "Fig", "Shape"], "CONTAINS", 5),
   (["Design"], ["getBlock", "getModule"], ["Block", "Module"], "CONTAINS", 5),
   (["Module"], ["getModNet", "getModTerm", "getModInst"],
    ["ModNet", "ModTerm", "ModInst"], "CONTAINS", 5),
   (["Occurrence"], ["getOccNet", "getOccTerm", "getOccInst"],
    ["OccNet", "OccTerm", "OccInst"], "CONTAINS", 5),
   (["Fig"], ["getBox", "getNet"], ["Box", "Net"], "HAS", 3),
   (["Rect", "Path", "Text", "Via"], ["getLayer", "getNet"], ["Layer", "Net"],
    "ASSOCIATED_WITH", 3),
   (["Shape", "ConnFig"], ["getLayer", "getNet"], ["Layer", "Net"], "ON", 4),
   (["Term", "Inst"], ["getName", "getNet", "getInstTerm"],
    ["Name", "Net", "InstTerm"], "HAS", 3),
   (["Net"], ["isGlobal"], [], "PROPERTY", 1)]

/-- `re.search(r'get(\w+)', s)`: the captured group at the leftmost
position where `get` is followed by at least one word character. -/
def searchGetWord : List Char → Option (List Char)
  | [] => none
  | c :: cs =>
    match (c :: cs).drop 3, ("get").data.isPrefixOf (c :: cs) with
    | d :: rest, true =>
      if pyWord d then some (d :: rest.takeWhile pyWord) else searchGetWord cs
    | _, _ => searchGetWord cs

/-- `extract_domain_relationships`: match the method and class names
against the `DOMAIN_RELATIONSHIPS` rows, producing
`(rel_type, target, weight, method, concept)` tuples for every matching
row. -/
def extract_domain_relationships (m : YMethod) (source_class target_class : String) :
    List (String × String × Nat × String × String) :=
  let method_name := m.name.getD ""
  let source_base := pyReplace source_class ("oa") ("")
  let target_base :=
    if target_class ≠ "" then pyReplace target_class ("oa") ("") else ""
  DOMAIN_RELATIONSHIPS.foldl
    (fun acc row =>
      let (srcAlts, relAlts, tgtAlts, rel_type, weight) := row
      if (srcAlts.any fun p => pyIn p source_base) &&
          (tgtAlts.isEmpty || tgtAlts.any fun p => pyIn p target_base) then
        if relAlts.any fun p => pyIn p method_name then
          let concept := ((searchGetWord method_name.data).map
            fun g => (⟨g⟩ : String)).getD ""
          acc ++ [(rel_type, target_class, weight, method_name, concept)]
        else acc
      else acc)
    []

/-- First pass of `build_domain_ontology` for one record: a classified
node in the domain graph, a mirror node and inheritance edges in the
software graph. -/
def pass1 (st : DGraph × SWGraph) (f : YRecord) : DGraph × SWGraph :=
  match f.name with
  | none => st
  | some class_name =>
    let dc := Enhanced.extract_domain_type class_name
    let g := addNode st.1 class_name
      { dtype := "Class"
        domain := dc.1
        concept := dc.2
        description := Enhanced.clean_description f.description 200
        methods_count := (f.methods.getD []).length }
    let sw := swAddNode st.2 class_name
    let sw := f.inheritance.foldl (fun sw parent => swAddEdge sw class_name parent) sw
    (g, sw)

/-- Second pass, one method: getters with a non-collection return type
naming an existing class through a pointer signature yield the
pattern-matched domain edges. -/
def pass2Method (class_name : String) (g : DGraph) (m : YMethod) : DGraph :=
  let method_name := m.name.getD ""
  let return_type := m.return_type.getD ""
  if !pyStartsWith ("get") method_name || pyIn ("Collection") return_type then g
  else if return_type ≠ "" && pyIn ("oa") return_type &&
      pyIn ("*") (m.signature.getD "") then
    let target_class := pyStrip (pyReplace return_type ("*") (""))
    if hasNode g target_class && hasNode g class_name then
      (extract_domain_relationships m class_name target_class).foldl
        (fun g r =>
          let (rel_type, target, weight, method_name, concept) := r
          addEdge g class_name target
            { dtype := rel_type, weight := weight,
              method := some method_name, concept := some concept })
        g
    else g
  else g

/-- Second pass of `build_domain_ontology` for one record. -/
def pass2 (g : DGraph) (f : YRecord) : DGraph :=
  match f.name, f.methods with
  | some class_name, some methods => methods.foldl (pass2Method class_name) g
  | _, _ => g

/-- Third pass for one inheritance edge: copy `domain`/`concept` from the
parent when the child's value is falsy (and the parent's truthy), and add
a `SPECIALIZES` edge when none exists.  A node implicitly created without
attributes never occurs here (every edge endpoint is checked for
membership before `add_edge`), so the attribute update is modelled on
attributed nodes only. -/
def pass3Edge (g : DGraph) (e : String × String × String) : DGraph :=
  let (source, target, ty) := e
  if ty = "INHERITS_FROM" then
    if hasNode g source && hasNode g target then
      let srcA := ((g.nodes.lookup source).getD none)
      let tgtA := ((g.nodes.lookup target).getD none)
      let g :=
        match srcA, tgtA with
        | some sa, some ta =>
          let sa := if sa.domain = "" ∧ ta.domain ≠ "" then
            { sa with domain := ta.domain } else sa
          let sa := if sa.concept = "" ∧ ta.concept ≠ "" then
            { sa with concept := ta.concept } else sa
          { g with
            nodes := g.nodes.map fun kv =>
              if kv.1 = source then (kv.1, some sa) else kv }
        | _, _ => g
      if !hasEdge g source target then
        addEdge g source target
          { dtype := "SPECIALIZES", weight := 2, method := none, concept := none }
      else g
    else g
  else g

/-- `build_domain_ontology`: classify every class, extract pattern-based
domain relationships, then walk the inheritance edges once (the returned
value is the domain graph; the software graph is internal). -/
def build_domain_ontology (files : List YRecord) : DGraph :=
  let st := files.foldl pass1 ({ nodes := [], edges := [] }, { nodes := [], edges := [] })
  let g := files.foldl pass2 st.1
  (swEdgesGrouped st.2).foldl pass3Edge g

end DomainX

namespace BuildOntology

/-!
Embedding of `src/build_ontology.py`'s `clean_description`: the design
graph build's node-description clean-up, truncating at 300 characters to
297 plus `"..."`. -/

/-- `clean_description` of `build_ontology.py`. -/
def clean_description (description : String) : String :=
  if description = "" then ""
  else
    let desc := pyStripL (collapseWs description.data)
    if desc.length > 300 then ⟨desc.take 297 ++ ("...").data⟩
    else ⟨desc⟩

end BuildOntology

/-!
Specification-side definitions.  The claims compare the code's behaviour
with the spec's words; the following definitions are written from the
spec's words (they are the only definitions in this file not translated
from the source) and are clearly named `spec...`.
-/

/-- The `DOMAIN_CONCEPTS` table flattened into `(domain, keyword)` pairs
in table order. -/
def keywordTable : List (String × String) :=
  Enhanced.DOMAIN_CONCEPTS.foldr (fun dc acc => (dc.2.map fun c => (dc.1, c)) ++ acc) []

/-- Written from the spec's words for claim C5: the `(domain, concept)` of
the first keyword of the fixed table (in table order) that occurs as a
substring of the given string, with fallback `("Other", "Unknown")`.  The
claim applies this to the symbol name itself. -/
def specDomainByName (s : String) : String × String :=
  ((keywordTable.find? fun p => pyIn p.2 s).getD (("Other"), ("Unknown")))

/-- The nearby corrected statement for claim C5: the same first-match
table lookup, applied to the name with every occurrence of `oa`, `Mod`
and `Occ` removed (the `base_name` the code actually matches against). -/
def specDomainByBase (s : String) : String × String :=
  specDomainByName
    (pyReplace (pyReplace (pyReplace s ("oa") ("")) ("Mod") ("")) ("Occ") (""))

/-!
Concrete inputs for counterexamples and witnesses.
-/

/-- A merged-symbol record with every content field empty. -/
def emptyMerged (n : String) : Crossref.MergedInfo :=
  { name := n, description := "", module := "unknown", inheritance := [],
    methods := [], attributes := [], relationships := [], enumerations := [],
    has_api := true, uml_sources := [] }

/-- A relationship statement from `oaA` to `oaB` with the given type,
description and member name. -/
def relAB (ty d mem : String) : Crossref.Rel :=
  { source := some "oaA", target := some "oaB", rtype := some ty,
    member := some mem, description := some d }

/-- Builder input for claim C1: two symbols, with two relationship
statements between the same endpoints carried on the first one. -/
def c1input (ty1 ty2 d1 d2 m1 m2 : String) : List (String × Crossref.MergedInfo) :=
  [(("oaA"), { emptyMerged ("oaA") with
      relationships := [relAB ty1 d1 m1, relAB ty2 d2 m2] }),
   (("oaB"), emptyMerged ("oaB"))]

/-- The claim C1 counterexample instance: an `inheritance` and a
`composition` statement between the same endpoints. -/
def c1cex : List (String × Crossref.MergedInfo) :=
  c1input ("inheritance") ("composition") ("d1") ("d2") ("m1") ("m2")

/-- Claim C2 (Scenario A): the API record of `oaNet`, declaring the single
method `getTerms()` returning `oaCollection<oaTerm>`. -/
def c2apiNet : Crossref.ApiInfo :=
  { description := some "Represents a net."
    inheritance := []
    methods := [{ name := some "getTerms",
                  return_type := some "oaCollection<oaTerm>",
                  signature := none, description := none, source := none }]
    enumerations := [] }

/-- Claim C2: the API record of `oaTerm` (present so that the expected
edge target resolves to a node). -/
def c2apiTerm : Crossref.ApiInfo :=
  { description := some "Represents a term.", inheritance := [],
    methods := [], enumerations := [] }

/-- The merged symbol the cross-referencer produces for `oaNet` in
Scenario A (no UML data). -/
def c2net : Crossref.MergedInfo :=
  (Crossref.process_class ("oaNet") (some c2apiNet) (some ("design")) none [] []).getD
    (emptyMerged ("oaNet"))

/-- The merged symbol for `oaTerm` in Scenario A. -/
def c2term : Crossref.MergedInfo :=
  (Crossref.process_class ("oaTerm") (some c2apiTerm) (some ("design")) none [] []).getD
    (emptyMerged ("oaTerm"))

/-- The enhanced domain graph built from Scenario A. -/
def c2graph : Enhanced.EGraph :=
  Enhanced.build_enhanced_domain_ontology [(("oaNet"), c2net), (("oaTerm"), c2term)]

/-- Claim C3 failing input: a merged symbol whose only method is the
setter `setFoo`. -/
def c3input : Crossref.MergedInfo :=
  { emptyMerged ("oaFoo") with
    methods := [{ name := some "setFoo", return_type := some "void",
                  signature := none, description := none, source := none }] }

/-- Claim C4 counterexample input: a UML record carrying a description
(the fusion code never reads it). -/
def c4uml : Crossref.UmlInfo :=
  { methods := [], attributes := [], description := some "A net object." }

/-- Claim C6 counterexample input: `oaFoo7` is left unclassified by the
keyword table and inherits from the classified `oaNet`. -/
def c6files : List DomainX.YRecord :=
  [{ name := some "oaNet", description := "", methods := some [], inheritance := [] },
   { name := some "oaFoo7", description := "", methods := some [],
     inheritance := ["oaNet"] }]

/-- Claim C8 counterexample input: the same API method entry listed
twice. -/
def c8m : Crossref.PyMethod :=
  { name := some "getName", return_type := some "oaString",
    signature := none, description := none, source := none }

/-- Claim C9 witness input: one UML relationship statement between two
present symbols. -/
def c9input : List (String × Crossref.MergedInfo) :=
  [(("oaA"), { emptyMerged ("oaA") with
      relationships := [relAB ("inheritance") ("d") ("m")] }),
   (("oaB"), emptyMerged ("oaB"))]

/-- Claim C10 witness input: one symbol whose raw description is 250
characters long. -/
def c10input : List (String × Crossref.MergedInfo) :=
  [(("oaA"), { emptyMerged ("oaA") with
      description := ⟨List.replicate 250 ('x')⟩ })]

/-- The trigger substrings of `clean_description`'s rewriting steps: the
seven literal scrub patterns, the literal head of the copyright pattern,
and the three HTML entities.  A string whose collapsed form avoids all of
them passes every scrub unchanged. -/
def scrubTriggers : List String :=
  [("Member Function Documentation"), ("Member Data Documentation"),
   ("Protected Member Functions"), ("Protected Attributes"),
   ("Return to top of page"), ("Copyright"), ("All Rights Reserved."),
   ("The documentation for this class was generated from the following file"),
   ("&lt;"), ("&gt;"), ("&amp;")]

/-!
Theorems.  Helper lemmas come first; each claim is settled by one theorem
carrying the claim id in its doc comment.
-/

/-- Splitting a first-match scan over a mapped block followed by a
tail. -/
theorem find?_block (base d : String) (cs : List String)
    (l2 : List (String × String)) :
    ((cs.map fun c => (d, c)) ++ l2).find? (fun p => pyIn p.2 base) =
      match cs.find? (fun c => pyIn c base) with
      | some c => some (d, c)
      | none => l2.find? (fun p => pyIn p.2 base) := by
  induction cs with
  | nil => simp [List.find?]
  | cons c cs ih =>
    simp only [List.map_cons, List.cons_append, List.find?]
    cases h : pyIn c base with
    | true => rfl
    | false => exact ih

/-- The nested first-match loop of `extract_domain_type` agrees with a
single first-match scan over the flattened `(domain, keyword)` table. -/
theorem findDomain_eq_flat (t : List (String × List String)) (base : String) :
    Enhanced.findDomain t base =
      ((t.foldr (fun dc acc => (dc.2.map fun c => (dc.1, c)) ++ acc) []).find?
          fun p => pyIn p.2 base).getD (("Other"), ("Unknown")) := by
  induction t with
  | nil => simp [Enhanced.findDomain, List.find?]
  | cons dc rest ih =>
    obtain ⟨d, cs⟩ := dc
    simp only [List.foldr_cons]
    rw [find?_block base d cs]
    cases h : cs.find? fun c => pyIn c base with
    | none => simpa [Enhanced.findDomain, h] using ih
    | some c => simp [Enhanced.findDomain, h]

/-- Claim C5 (amended): for every symbol name, the Domain Classifier
returns the `(domain, concept)` of the first keyword in the fixed table
(in table order) that occurs as a substring of the *stripped base name*
(the name with every occurrence of `oa`, `Mod` and `Occ` removed), and
`("Other", "Unknown")` when no keyword occurs in that base name. -/
theorem claim_C5 (name : String) :
    Enhanced.extract_domain_type name = specDomainByBase name := by
  unfold Enhanced.extract_domain_type specDomainByBase specDomainByName keywordTable
  exact findDomain_eq_flat Enhanced.DOMAIN_CONCEPTS _

/-- Claim C5, counterexample: on the name `oaModule` the keyword `Module`
occurs in the name, and the claim (first keyword occurring in the *name*)
predicts `("Hierarchy", "Module")`; the code strips `oa` and `Mod` first
and returns `("Other", "Unknown")`. -/
theorem claim_C5_counterexample :
    specDomainByName ("oaModule") = (("Hierarchy"), ("Module")) ∧
      Enhanced.extract_domain_type ("oaModule") = (("Other"), ("Unknown")) := by
  constructor <;> rfl

/-- Claim C3 (code bug): on a merged symbol whose only method is the
setter `setFoo`, the Attribute Inference Engine of
`crossref_api_uml.py` produces no attribute at all — `set<X>` methods are
never examined (the compiled `setter_pattern` is unused), contradicting
the function's own docstring and the spec's `has_setter` behaviour. -/
theorem claim_C3 :
    (Crossref.infer_attributes_from_methods c3input).attributes = [] := by
  rfl

/-- Claim C4 (amended): the Merged Symbol's description is the API
record's description when an API record exists, and `""` otherwise —
`merge_class_info` never consults a description carried by the UML
record. -/
theorem claim_C4 (class_name : String) (api : Option Crossref.ApiInfo)
    (module : Option String) (uml : Option Crossref.UmlInfo)
    (rels : List Crossref.Rel) (srcs : List String)
    (h : api.isSome ∨ uml.isSome) :
    (Crossref.merge_class_info class_name api module uml rels srcs).map
        Crossref.MergedInfo.description =
      some (match api with
            | some a => a.description.getD ""
            | none => "") := by
  cases api with
  | some a => cases uml <;> rfl
  | none =>
    cases uml with
    | some u => rfl
    | none => simp at h

/-- Witness for claim C4 at a concrete input. -/
theorem claim_C4_witness :
    ((some c2apiNet : Option Crossref.ApiInfo).isSome ∨
        (none : Option Crossref.UmlInfo).isSome) ∧
      (Crossref.merge_class_info ("oaNet") (some c2apiNet) (some ("design")) none
            [] []).map Crossref.MergedInfo.description =
        some (match some c2apiNet with
              | some a => a.description.getD ""
              | none => "") :=
  ⟨Or.inl rfl,
   claim_C4 ("oaNet") (some c2apiNet) (some ("design")) none [] [] (Or.inl rfl)⟩

/-- Claim C4, counterexample: a symbol present only in a UML record that
carries the description `A net object.` is merged with description `""` —
the claimed fallback to the UML record's description does not happen. -/
theorem claim_C4_counterexample :
    (Crossref.merge_class_info ("oaNet") none none (some c4uml) [] []).map
        Crossref.MergedInfo.description = some ("") := by
  rfl

/-! Lemmas about the embedded `networkx` graph operations. -/

theorem hasNode_iff (g : Enhanced.EGraph) (n : String) :
    Enhanced.hasNode g n = true ↔ n ∈ Enhanced.nodeNames g := by
  simp [Enhanced.hasNode, Enhanced.nodeNames, List.elem_iff]

theorem ensureNode_of_mem (g : Enhanced.EGraph) (n : String)
    (h : Enhanced.hasNode g n = true) : Enhanced.ensureNode g n = g := by
  simp [Enhanced.ensureNode, h]

theorem ensureNode_edges (g : Enhanced.EGraph) (n : String) :
    (Enhanced.ensureNode g n).edges = g.edges := by
  unfold Enhanced.ensureNode
  split <;> rfl

theorem nodeNames_ensureNode_sub (g : Enhanced.EGraph) (n m : String)
    (h : m ∈ Enhanced.nodeNames g) :
    m ∈ Enhanced.nodeNames (Enhanced.ensureNode g n) := by
  unfold Enhanced.ensureNode
  split
  · exact h
  · simpa [Enhanced.nodeNames] using Or.inl (by simpa [Enhanced.nodeNames] using h)

theorem mem_nodeNames_ensureNode (g : Enhanced.EGraph) (n : String) :
    n ∈ Enhanced.nodeNames (Enhanced.ensureNode g n) := by
  unfold Enhanced.ensureNode
  split
  · next h => exact (hasNode_iff g n).mp h
  · simp [Enhanced.nodeNames]

theorem addNode_edges (g : Enhanced.EGraph) (n : String) (a : Enhanced.ENode) :
    (Enhanced.addNode g n a).edges = g.edges := by
  unfold Enhanced.addNode
  split <;> rfl

theorem nodeNames_addNode (g : Enhanced.EGraph) (n : String) (a : Enhanced.ENode) :
    Enhanced.nodeNames (Enhanced.addNode g n a) =
      if Enhanced.hasNode g n then Enhanced.nodeNames g
      else Enhanced.nodeNames g ++ [n] := by
  unfold Enhanced.addNode
  split
  · simp only [Enhanced.nodeNames, List.map_map]
    refine List.map_congr_left fun kv _ => ?_
    by_cases hk : kv.1 = n <;> simp [hk]
  · simp [Enhanced.nodeNames]

theorem addEdge_nodes (g : Enhanced.EGraph) (u v : String) (a : Enhanced.ERel) :
    (Enhanced.addEdge g u v a).nodes =
      (Enhanced.ensureNode (Enhanced.ensureNode g u) v).nodes := rfl

theorem addEdge_nodes_of_mem (g : Enhanced.EGraph) (u v : String)
    (a : Enhanced.ERel) (hu : Enhanced.hasNode g u = true)
    (hv : Enhanced.hasNode g v = true) :
    (Enhanced.addEdge g u v a).nodes = g.nodes := by
  rw [addEdge_nodes, ensureNode_of_mem g u hu, ensureNode_of_mem g v hv]

theorem edgeKeys_addEdge (g : Enhanced.EGraph) (u v : String) (a : Enhanced.ERel) :
    Enhanced.edgeKeys (Enhanced.addEdge g u v a) =
      if (u, v) ∈ Enhanced.edgeKeys g then Enhanced.edgeKeys g
      else Enhanced.edgeKeys g ++ [(u, v)] := by
  have hmem : ((g.edges.map fun e => (e.1, e.2.1)).contains (u, v) = true) ↔
      (u, v) ∈ Enhanced.edgeKeys g := by
    simp [Enhanced.edgeKeys, List.elem_iff]
  unfold Enhanced.addEdge
  by_cases hc : (u, v) ∈ Enhanced.edgeKeys g
  · rw [if_pos (hmem.mpr hc), if_pos hc]
    simp only [Enhanced.edgeKeys, List.map_map]
    refine List.map_congr_left fun e _ => ?_
    by_cases he : e.1 = u ∧ e.2.1 = v
    · simp [he, he.1, he.2]
    · simp [he]
  · rw [if_neg (fun h => hc (hmem.mp h)), if_neg hc]
    simp [Enhanced.edgeKeys]

theorem edgeEndsOK_addNode (g : Enhanced.EGraph) (n : String) (a : Enhanced.ENode)
    (h : Enhanced.edgeEndsOK g) : Enhanced.edgeEndsOK (Enhanced.addNode g n a) := by
  intro e he
  rw [addNode_edges] at he
  obtain ⟨h1, h2⟩ := h e he
  rw [nodeNames_addNode]
  constructor <;> split <;> simp [h1, h2]

theorem edgeEndsOK_addEdge (g : Enhanced.EGraph) (u v : String) (a : Enhanced.ERel)
    (h : Enhanced.edgeEndsOK g) : Enhanced.edgeEndsOK (Enhanced.addEdge g u v a) := by
  have hu : u ∈ Enhanced.nodeNames (Enhanced.addEdge g u v a) := by
    rw [show Enhanced.nodeNames (Enhanced.addEdge g u v a) =
        Enhanced.nodeNames (Enhanced.ensureNode (Enhanced.ensureNode g u) v) from rfl]
    exact nodeNames_ensureNode_sub _ _ _ (mem_nodeNames_ensureNode g u)
  have hv : v ∈ Enhanced.nodeNames (Enhanced.addEdge g u v a) :=
    mem_nodeNames_ensureNode _ v
  have hsub : ∀ m, m ∈ Enhanced.nodeNames g →
      m ∈ Enhanced.nodeNames (Enhanced.addEdge g u v a) := fun m hm =>
    nodeNames_ensureNode_sub _ _ _ (nodeNames_ensureNode_sub _ _ _ hm)
  intro e he
  have he' : e ∈ (if (g.edges.map fun e => (e.1, e.2.1)).contains (u, v) then
      g.edges.map fun e => if e.1 = u ∧ e.2.1 = v then (u, v, a) else e
    else g.edges ++ [(u, v, a)]) := he
  split at he'
  · simp only [List.mem_map] at he'
    obtain ⟨e0, he0, rfl⟩ := he'
    by_cases hc : e0.1 = u ∧ e0.2.1 = v
    · simpa [hc] using ⟨hu, hv⟩
    · obtain ⟨h1, h2⟩ := h e0 he0
      simpa [hc] using ⟨hsub _ h1, hsub _ h2⟩
  · simp only [List.mem_append, List.mem_singleton] at he'
    rcases he' with he' | rfl
    · obtain ⟨h1, h2⟩ := h e he'
      exact ⟨hsub _ h1, hsub _ h2⟩
    · exact ⟨hu, hv⟩

/-! Preservation lemmas for the enhanced builder's passes. -/

theorem foldl_pres {α β : Type} (P : β → Prop) (f : β → α → β)
    (hf : ∀ b x, P b → P (f b x)) (l : List α) (b : β) (h : P b) :
    P (l.foldl f b) := by
  induction l generalizing b with
  | nil => exact h
  | cons x l ih => exact ih (f b x) (hf b x h)

theorem foldl_nodes_eq {α : Type} (f : Enhanced.EGraph → α → Enhanced.EGraph)
    (hf : ∀ g x, (f g x).nodes = g.nodes) (l : List α) (g : Enhanced.EGraph) :
    (l.foldl f g).nodes = g.nodes := by
  induction l generalizing g with
  | nil => rfl
  | cons x l ih => rw [List.foldl_cons, ih (f g x), hf g x]

theorem hasNode_congr (g g' : Enhanced.EGraph) (n : String)
    (h : g'.nodes = g.nodes) : Enhanced.hasNode g' n = Enhanced.hasNode g n := by
  unfold Enhanced.hasNode
  rw [h]

theorem addUmlRel_nodes (g : Enhanced.EGraph) (r : Crossref.Rel) :
    (Enhanced.addUmlRel g r).nodes = g.nodes := by
  unfold Enhanced.addUmlRel
  cases r.source with
  | none => rfl
  | some src =>
    cases r.target with
    | none => rfl
    | some tgt =>
      dsimp only
      split
      · next hc =>
        rw [Bool.and_eq_true] at hc
        exact addEdge_nodes_of_mem g src tgt _ hc.1 hc.2
      · rfl

theorem addInferredRel_nodes (cn : String) (g : Enhanced.EGraph)
    (m : Crossref.PyMethod) (h : Enhanced.hasNode g cn = true) :
    (Enhanced.addInferredRel cn g m).nodes = g.nodes := by
  unfold Enhanced.addInferredRel
  simp only
  split
  · split
    · rfl
    · next ht =>
      rw [Bool.not_eq_true', Bool.not_eq_false] at ht
      split
      · rfl
      · exact addEdge_nodes_of_mem g cn _ _ h ht
  · rfl

theorem foldl_inferred_nodes (cn : String) (l : List Crossref.PyMethod)
    (g : Enhanced.EGraph) (h : Enhanced.hasNode g cn = true) :
    (l.foldl (Enhanced.addInferredRel cn) g).nodes = g.nodes := by
  induction l generalizing g with
  | nil => rfl
  | cons m l ih =>
    rw [List.foldl_cons,
      ih (Enhanced.addInferredRel cn g m)
        (by rw [hasNode_congr g _ cn (addInferredRel_nodes cn g m h)]; exact h),
      addInferredRel_nodes cn g m h]

theorem addClassRels_nodes (g : Enhanced.EGraph) (n : String)
    (d : Crossref.MergedInfo) : (Enhanced.addClassRels g n d).nodes = g.nodes := by
  unfold Enhanced.addClassRels
  simp only
  split
  · rfl
  · next hn =>
    rw [Bool.not_eq_true', Bool.not_eq_false] at hn
    have hrels : (d.relationships.foldl Enhanced.addUmlRel g).nodes = g.nodes :=
      foldl_nodes_eq Enhanced.addUmlRel addUmlRel_nodes d.relationships g
    split
    · next hc =>
      rw [Bool.and_eq_true] at hc
      rw [foldl_inferred_nodes n d.methods _ hc.2, hrels]
    · exact hrels

theorem edgeEndsOK_addUmlRel (g : Enhanced.EGraph) (r : Crossref.Rel)
    (h : Enhanced.edgeEndsOK g) : Enhanced.edgeEndsOK (Enhanced.addUmlRel g r) := by
  unfold Enhanced.addUmlRel
  cases r.source with
  | none => exact h
  | some src =>
    cases r.target with
    | none => exact h
    | some tgt =>
      dsimp only
      split
      · exact edgeEndsOK_addEdge g src tgt _ h
      · exact h

theorem edgeEndsOK_addInferredRel (cn : String) (g : Enhanced.EGraph)
    (m : Crossref.PyMethod) (h : Enhanced.edgeEndsOK g) :
    Enhanced.edgeEndsOK (Enhanced.addInferredRel cn g m) := by
  unfold Enhanced.addInferredRel
  simp only
  split
  · split
    · exact h
    · split
      · exact h
      · exact edgeEndsOK_addEdge g cn _ _ h
  · exact h

theorem edgeEndsOK_addClassRels (g : Enhanced.EGraph) (n : String)
    (d : Crossref.MergedInfo) (h : Enhanced.edgeEndsOK g) :
    Enhanced.edgeEndsOK (Enhanced.addClassRels g n d) := by
  unfold Enhanced.addClassRels
  simp only
  split
  · exact h
  · have h1 : Enhanced.edgeEndsOK (d.relationships.foldl Enhanced.addUmlRel g) :=
      foldl_pres Enhanced.edgeEndsOK Enhanced.addUmlRel
        (fun b x hb => edgeEndsOK_addUmlRel b x hb) d.relationships g h
    split
    · exact foldl_pres Enhanced.edgeEndsOK (Enhanced.addInferredRel n)
        (fun b x hb => edgeEndsOK_addInferredRel n b x hb) d.methods _ h1
    · exact h1

theorem edgeEndsOK_addClassNode (g : Enhanced.EGraph) (n : String)
    (d : Crossref.MergedInfo) (h : Enhanced.edgeEndsOK g) :
    Enhanced.edgeEndsOK (Enhanced.addClassNode g n d) :=
  edgeEndsOK_addNode g n _ h

theorem edgeKeys_addNode (g : Enhanced.EGraph) (n : String) (a : Enhanced.ENode) :
    Enhanced.edgeKeys (Enhanced.addNode g n a) = Enhanced.edgeKeys g := by
  unfold Enhanced.edgeKeys
  rw [addNode_edges]

theorem edgeKeysNodup_addEdge (g : Enhanced.EGraph) (u v : String)
    (a : Enhanced.ERel) (h : (Enhanced.edgeKeys g).Nodup) :
    (Enhanced.edgeKeys (Enhanced.addEdge g u v a)).Nodup := by
  rw [edgeKeys_addEdge]
  split
  · exact h
  · next hc => simp [List.nodup_append, h, hc]

theorem edgeKeysNodup_addUmlRel (g : Enhanced.EGraph) (r : Crossref.Rel)
    (h : (Enhanced.edgeKeys g).Nodup) :
    (Enhanced.edgeKeys (Enhanced.addUmlRel g r)).Nodup := by
  unfold Enhanced.addUmlRel
  cases r.source with
  | none => exact h
  | some src =>
    cases r.target with
    | none => exact h
    | some tgt =>
      dsimp only
      split
      · exact edgeKeysNodup_addEdge g src tgt _ h
      · exact h

theorem edgeKeysNodup_addInferredRel (cn : String) (g : Enhanced.EGraph)
    (m : Crossref.PyMethod) (h : (Enhanced.edgeKeys g).Nodup) :
    (Enhanced.edgeKeys (Enhanced.addInferredRel cn g m)).Nodup := by
  unfold Enhanced.addInferredRel
  simp only
  split
  · split
    · exact h
    · split
      · exact h
      · exact edgeKeysNodup_addEdge g cn _ _ h
  · exact h

theorem edgeKeysNodup_addClassRels (g : Enhanced.EGraph) (n : String)
    (d : Crossref.MergedInfo) (h : (Enhanced.edgeKeys g).Nodup) :
    (Enhanced.edgeKeys (Enhanced.addClassRels g n d)).Nodup := by
  unfold Enhanced.addClassRels
  simp only
  split
  · exact h
  · have h1 : (Enhanced.edgeKeys (d.relationships.foldl Enhanced.addUmlRel g)).Nodup :=
      foldl_pres (fun g => (Enhanced.edgeKeys g).Nodup) Enhanced.addUmlRel
        (fun b x hb => edgeKeysNodup_addUmlRel b x hb) d.relationships g h
    split
    · exact foldl_pres (fun g => (Enhanced.edgeKeys g).Nodup)
        (Enhanced.addInferredRel n)
        (fun b x hb => edgeKeysNodup_addInferredRel n b x hb) d.methods _ h1
    · exact h1

/-! The first pass adds exactly the dictionary's keys as nodes. -/

theorem nodeNames_foldl_addClassNode (l : List (String × Crossref.MergedInfo))
    (g : Enhanced.EGraph)
    (h : (Enhanced.nodeNames g ++ l.map Prod.fst).Nodup) :
    Enhanced.nodeNames
        (l.foldl (fun g kv => Enhanced.addClassNode g kv.1 kv.2) g) =
      Enhanced.nodeNames g ++ l.map Prod.fst := by
  induction l generalizing g with
  | nil => simp
  | cons kv rest ih =>
    have hk : kv.1 ∉ Enhanced.nodeNames g := by
      intro hmem
      rcases List.nodup_append.mp h with ⟨-, -, hdis⟩
      exact hdis hmem (by simp)
    have hfalse : Enhanced.hasNode g kv.1 = false := by
      rw [Bool.eq_false_iff]
      intro ht
      exact hk ((hasNode_iff g kv.1).mp ht)
    have hnames : Enhanced.nodeNames (Enhanced.addClassNode g kv.1 kv.2) =
        Enhanced.nodeNames g ++ [kv.1] := by
      unfold Enhanced.addClassNode
      rw [nodeNames_addNode, hfalse]
      simp
    rw [List.foldl_cons, ih (Enhanced.addClassNode g kv.1 kv.2), hnames]
    · simp
    · rw [hnames]
      simpa using h

theorem edges_foldl_addClassNode (l : List (String × Crossref.MergedInfo))
    (g : Enhanced.EGraph) :
    (l.foldl (fun g kv => Enhanced.addClassNode g kv.1 kv.2) g).edges = g.edges := by
  induction l generalizing g with
  | nil => rfl
  | cons kv rest ih =>
    rw [List.foldl_cons, ih]
    exact addNode_edges g kv.1 _

/-! The dictionary built by `dictOfList` has pairwise-distinct keys. -/

theorem upsert_keys {α : Type} (l : List (String × α)) (k : String) (v : α) :
    (upsert l k v).map Prod.fst =
      if k ∈ l.map Prod.fst then l.map Prod.fst else l.map Prod.fst ++ [k] := by
  induction l with
  | nil => simp [upsert]
  | cons kv rest ih =>
    by_cases hk : kv.1 = k
    · simp [upsert, hk]
    · simp only [upsert, hk, if_false, List.map_cons, ih]
      by_cases hmem : k ∈ rest.map Prod.fst <;>
        simp [hmem, Ne.symm hk, hk]

theorem dictOfList_keys_nodup {α : Type} (l : List (String × α)) :
    ((dictOfList l).map Prod.fst).Nodup := by
  suffices h : ∀ acc : List (String × α), (acc.map Prod.fst).Nodup →
      ((l.foldl (fun acc kv => upsert acc kv.1 kv.2) acc).map Prod.fst).Nodup by
    exact h [] (by simp)
  induction l with
  | nil => exact fun acc h => h
  | cons kv rest ih =>
    intro acc hacc
    refine ih (upsert acc kv.1 kv.2) ?_
    rw [upsert_keys]
    split
    · exact hacc
    · next hmem => simp [List.nodup_append, hacc, hmem]

/-- Claim C9: in the built ontology graph, no edge has an endpoint absent
from the node set (dangling relationship statements are dropped, not
retained and not an error), and the node set is exactly the set of merged
symbols in the input — relationship statements never add nodes. -/
theorem claim_C9 (input : List (String × Crossref.MergedInfo)) :
    Enhanced.edgeEndsOK (Enhanced.build_enhanced_domain_ontology input) ∧
      Enhanced.nodeNames (Enhanced.build_enhanced_domain_ontology input) =
        (dictOfList input).map Prod.fst := by
  unfold Enhanced.build_enhanced_domain_ontology
  simp only
  constructor
  · refine foldl_pres Enhanced.edgeEndsOK _
      (fun b x hb => edgeEndsOK_addClassRels b x.1 x.2 hb) _ _ ?_
    refine foldl_pres Enhanced.edgeEndsOK _
      (fun b x hb => edgeEndsOK_addClassNode b x.1 x.2 hb) _ _ ?_
    intro e he
    simp at he
  · have h2 : ∀ g : Enhanced.EGraph,
        (((dictOfList input).foldl (fun g kv => Enhanced.addClassRels g kv.1 kv.2)
          g)).nodes = g.nodes :=
      fun g => foldl_nodes_eq _
        (fun (g : Enhanced.EGraph) (kv : String × Crossref.MergedInfo) =>
          addClassRels_nodes g kv.1 kv.2) _ g
    have h3 := nodeNames_foldl_addClassNode (dictOfList input)
      { nodes := [], edges := [] }
      (by simpa [Enhanced.nodeNames] using dictOfList_keys_nodup input)
    unfold Enhanced.nodeNames at *
    rw [h2, h3]
    simp [Enhanced.nodeNames]

/-- Witness for claim C9 at a concrete input with one accepted edge. -/
theorem claim_C9_witness :
    ((("oaA"), ("oaB"),
        ({ rtype := ("SPECIALIZES"), description := ("d"), member := ("m"),
           rsource := ("uml") } : Enhanced.ERel)) ∈
        (Enhanced.build_enhanced_domain_ontology c9input).edges) ∧
      ((("oaA"), ("oaB"),
          ({ rtype := ("SPECIALIZES"), description := ("d"), member := ("m"),
             rsource := ("uml") } : Enhanced.ERel)).1 ∈
          Enhanced.nodeNames (Enhanced.build_enhanced_domain_ontology c9input) ∧
        (("oaA"), ("oaB"),
          ({ rtype := ("SPECIALIZES"), description := ("d"), member := ("m"),
             rsource := ("uml") } : Enhanced.ERel)).2.1 ∈
          Enhanced.nodeNames (Enhanced.build_enhanced_domain_ontology c9input)) :=
  ⟨by decide, (claim_C9 c9input).1 _ (by decide)⟩

/-- Claim C1 (amended): the Ontology Graph Builder keys edges by the
`(source, target)` endpoint pair only — at most one edge ever exists per
endpoint pair — and a statement arriving at an existing pair *overwrites*
the surviving edge's type, description, member and provenance with its
own (last writer wins); provenance is not accumulated, and two statements
between the same endpoints with different types yield one edge carrying
the later type. -/
theorem claim_C1 :
    (∀ input : List (String × Crossref.MergedInfo),
        (Enhanced.edgeKeys (Enhanced.build_enhanced_domain_ontology input)).Nodup) ∧
      (∀ ty1 ty2 d1 d2 m1 m2 : String,
        (Enhanced.build_enhanced_domain_ontology
            (c1input ty1 ty2 d1 d2 m1 m2)).edges =
          [(("oaA"), ("oaB"),
            { rtype := Enhanced.umlToDomain (some ty2), description := d2,
              member := m2, rsource := ("uml") : Enhanced.ERel })]) := by
  constructor
  · intro input
    unfold Enhanced.build_enhanced_domain_ontology
    simp only
    refine foldl_pres (fun g => (Enhanced.edgeKeys g).Nodup) _
      (fun b x hb => edgeKeysNodup_addClassRels b x.1 x.2 hb) _ _ ?_
    have he : (((dictOfList input).foldl
        (fun g kv => Enhanced.addClassNode g kv.1 kv.2)
        { nodes := [], edges := [] } : Enhanced.EGraph)).edges = [] :=
      edges_foldl_addClassNode (dictOfList input) { nodes := [], edges := [] }
    show (Enhanced.edgeKeys _).Nodup
    unfold Enhanced.edgeKeys
    rw [he]
    exact List.nodup_nil
  · intro ty1 ty2 d1 d2 m1 m2
    rfl

/-- Claim C1, counterexample: an `inheritance` and a `composition`
statement between the same endpoints leave a single surviving edge whose
attributes (type `COMPOSED_OF`, description, member, provenance) are
those of the second statement alone — not two distinct edges, and no
accumulated provenance. -/
theorem claim_C1_counterexample :
    (Enhanced.build_enhanced_domain_ontology c1cex).edges =
      [(("oaA"), ("oaB"),
        ({ rtype := ("COMPOSED_OF"), description := ("d2"), member := ("m2"),
           rsource := ("uml") } : Enhanced.ERel))] := by
  decide

/-- Claim C2 (amended): on Scenario A (API declares `oaNet.getTerms()`
returning `oaCollection<oaTerm>`, no UML data) the pipeline produces a
Merged Symbol `oaNet` whose one method has provenance `api`, with
`has_api = true`, and classifies `oaNet` into domain `Connectivity`; but
it produces *no* inferred relationship edge: the inference requires a `*`
in the return type and resolves the entire cleaned return type as the
target class, so a collection return type yields no
`(oaNet, oaTerm, CONTAINS_MANY)` edge. -/
theorem claim_C2 :
    c2net.methods.map Crossref.PyMethod.source = [some ("api")] ∧
      c2net.has_api = true ∧
      (c2graph.nodes.lookup ("oaNet")).map (Option.map Enhanced.ENode.domain) =
        some (some ("Connectivity")) ∧
      c2graph.edges = [] := by
  decide

/-- Claim C2, counterexample: in the built Scenario A graph both `oaNet`
and `oaTerm` are nodes, yet the edge set is empty — in particular the
claimed `(oaNet, oaTerm, CONTAINS_MANY, member="terms")` edge tagged
`api_inferred` does not exist. -/
theorem claim_C2_counterexample :
    c2graph.nodes.map Prod.fst = [("oaNet"), ("oaTerm")] ∧ c2graph.edges = [] := by
  decide

/-! Lemmas for the domain-extraction builder (claim C6). -/

theorem lookup_mem {α : Type} (l : List (String × α)) (k : String) (v : α)
    (h : l.lookup k = some v) : (k, v) ∈ l := by
  induction l with
  | nil => simp [List.lookup] at h
  | cons kv rest ih =>
    rw [List.lookup] at h
    split at h
    · next hk =>
      simp only [Option.some.injEq] at h
      have hkk : k = kv.1 := beq_iff_eq.mp hk
      have hkv : (k, v) = kv := by
        cases kv
        simp_all
      rw [hkv]
      exact List.mem_cons_self _ _
    · right
      exact ih h

theorem findDomain_ne_empty (t : List (String × List String)) (base : String)
    (ht : ∀ p ∈ t, p.1 ≠ "" ∧ ∀ c ∈ p.2, c ≠ "") :
    (Enhanced.findDomain t base).1 ≠ "" ∧ (Enhanced.findDomain t base).2 ≠ "" := by
  induction t with
  | nil =>
    simp only [Enhanced.findDomain]
    exact ⟨by decide, by decide⟩
  | cons dc rest ih =>
    obtain ⟨d, cs⟩ := dc
    rw [Enhanced.findDomain]
    cases h : cs.find? fun c => pyIn c base with
    | none => exact ih fun p hp => ht p (List.mem_cons_of_mem _ hp)
    | some c =>
      have hc : c ∈ cs := List.mem_of_find?_eq_some h
      have := ht (d, cs) (List.mem_cons_self _ _)
      exact ⟨this.1, this.2 c hc⟩

theorem extract_domain_type_ne_empty (n : String) :
    (Enhanced.extract_domain_type n).1 ≠ "" ∧
      (Enhanced.extract_domain_type n).2 ≠ "" := by
  unfold Enhanced.extract_domain_type
  exact findDomain_ne_empty Enhanced.DOMAIN_CONCEPTS _ (by decide)

theorem nodup_keys_unique {α : Type} (l : List (String × α)) (k : String)
    (v w : α) (hn : (l.map Prod.fst).Nodup) (hv : (k, v) ∈ l)
    (hw : (k, w) ∈ l) : v = w := by
  induction l with
  | nil => simp at hv
  | cons kv rest ih =>
    simp only [List.map_cons, List.nodup_cons] at hn
    rcases List.mem_cons.mp hv with hv1 | hv2 <;>
      rcases List.mem_cons.mp hw with hw1 | hw2
    · exact (Prod.ext_iff.mp (hv1.trans hw1.symm)).2
    · exfalso
      apply hn.1
      have hk1 : kv.1 = k := by rw [← hv1]
      rw [hk1]
      simpa using List.mem_map_of_mem Prod.fst hw2
    · exfalso
      apply hn.1
      have hk1 : kv.1 = k := by rw [← hw1]
      rw [hk1]
      simpa using List.mem_map_of_mem Prod.fst hv2
    · exact ih hn.2 hv2 hw2

/-! The classification invariant of the domain graph: node keys are
pairwise distinct and every attributed node carries exactly the keyword
classification of its name.  (`DClassified` is only a statement
abbreviation used by the lemmas below; it is defined inline.) -/

theorem dPres_of_nodes_eq (g g' : DomainX.DGraph) (h : g'.nodes = g.nodes)
    (hp : (g.nodes.map Prod.fst).Nodup ∧ ∀ n a, (n, some a) ∈ g.nodes →
      a.domain = (Enhanced.extract_domain_type n).1 ∧
      a.concept = (Enhanced.extract_domain_type n).2) :
    (g'.nodes.map Prod.fst).Nodup ∧ ∀ n a, (n, some a) ∈ g'.nodes →
      a.domain = (Enhanced.extract_domain_type n).1 ∧
      a.concept = (Enhanced.extract_domain_type n).2 := by
  rw [h]
  exact hp

theorem dPres_addNode (g : DomainX.DGraph) (n : String) (a : DomainX.DNode)
    (ha : a.domain = (Enhanced.extract_domain_type n).1 ∧
      a.concept = (Enhanced.extract_domain_type n).2)
    (hp : (g.nodes.map Prod.fst).Nodup ∧ ∀ m b, (m, some b) ∈ g.nodes →
      b.domain = (Enhanced.extract_domain_type m).1 ∧
      b.concept = (Enhanced.extract_domain_type m).2) :
    ((DomainX.addNode g n a).nodes.map Prod.fst).Nodup ∧
      ∀ m b, (m, some b) ∈ (DomainX.addNode g n a).nodes →
        b.domain = (Enhanced.extract_domain_type m).1 ∧
        b.concept = (Enhanced.extract_domain_type m).2 := by
  unfold DomainX.addNode
  split
  · constructor
    · have : ((g.nodes.map fun kv =>
          if kv.1 = n then (kv.1, some a) else kv).map Prod.fst) =
          g.nodes.map Prod.fst := by
        rw [List.map_map]
        refine List.map_congr_left fun kv _ => ?_
        by_cases hk : kv.1 = n <;> simp [hk]
      rw [this]
      exact hp.1
    · intro m b hmb
      simp only [List.mem_map] at hmb
      obtain ⟨kv, hkv, heq⟩ := hmb
      by_cases hk : kv.1 = n
      · rw [if_pos hk] at heq
        injection heq with h1 h2
        injection h2 with h2
        subst h1
        subst h2
        rw [hk]
        exact ha
      · rw [if_neg hk] at heq
        exact hp.2 m b (heq ▸ hkv)
  · next hmem =>
    constructor
    · have hfresh : n ∉ g.nodes.map Prod.fst := by
        intro hc
        exact hmem (by
          unfold DomainX.hasNode
          exact List.elem_iff.mpr hc)
      simp [List.nodup_append, hp.1, hfresh]
    · intro m b hmb
      rcases List.mem_append.mp hmb with hm | hm
      · exact hp.2 m b hm
      · simp only [List.mem_singleton, Prod.mk.injEq] at hm
        obtain ⟨rfl, hb⟩ := hm
        simp only [Option.some.injEq] at hb
        rw [hb]
        exact ha

theorem dPres_ensureNode (g : DomainX.DGraph) (n : String)
    (hp : (g.nodes.map Prod.fst).Nodup ∧ ∀ m b, (m, some b) ∈ g.nodes →
      b.domain = (Enhanced.extract_domain_type m).1 ∧
      b.concept = (Enhanced.extract_domain_type m).2) :
    (((DomainX.ensureNode g n).nodes.map Prod.fst).Nodup ∧
      ∀ m b, (m, some b) ∈ (DomainX.ensureNode g n).nodes →
        b.domain = (Enhanced.extract_domain_type m).1 ∧
        b.concept = (Enhanced.extract_domain_type m).2) := by
  unfold DomainX.ensureNode
  split
  · exact hp
  · next hmem =>
    constructor
    · have hfresh : n ∉ g.nodes.map Prod.fst := by
        intro hc
        exact hmem (by
          unfold DomainX.hasNode
          exact List.elem_iff.mpr hc)
      simp [List.nodup_append, hp.1, hfresh]
    · intro m b hmb
      rcases List.mem_append.mp hmb with hm | hm
      · exact hp.2 m b hm
      · simp at hm

theorem dPres_addEdge (g : DomainX.DGraph) (u v : String) (a : DomainX.DEdge)
    (hp : (g.nodes.map Prod.fst).Nodup ∧ ∀ m b, (m, some b) ∈ g.nodes →
      b.domain = (Enhanced.extract_domain_type m).1 ∧
      b.concept = (Enhanced.extract_domain_type m).2) :
    (((DomainX.addEdge g u v a).nodes.map Prod.fst).Nodup ∧
      ∀ m b, (m, some b) ∈ (DomainX.addEdge g u v a).nodes →
        b.domain = (Enhanced.extract_domain_type m).1 ∧
        b.concept = (Enhanced.extract_domain_type m).2) := by
  have h1 := dPres_ensureNode g u hp
  have h2 := dPres_ensureNode (DomainX.ensureNode g u) v h1
  exact dPres_of_nodes_eq _ _ rfl h2

theorem dPres_pass3Edge (g : DomainX.DGraph) (e : String × String × String)
    (hp : (g.nodes.map Prod.fst).Nodup ∧ ∀ m b, (m, some b) ∈ g.nodes →
      b.domain = (Enhanced.extract_domain_type m).1 ∧
      b.concept = (Enhanced.extract_domain_type m).2) :
    (((DomainX.pass3Edge g e).nodes.map Prod.fst).Nodup ∧
      ∀ m b, (m, some b) ∈ (DomainX.pass3Edge g e).nodes →
        b.domain = (Enhanced.extract_domain_type m).1 ∧
        b.concept = (Enhanced.extract_domain_type m).2) := by
  obtain ⟨source, target, ty⟩ := e
  unfold DomainX.pass3Edge
  simp only
  split
  · split
    · cases hs : (g.nodes.lookup source).getD none with
      | none =>
        dsimp only
        split
        · exact dPres_addEdge _ _ _ _ hp
        · exact hp
      | some sa =>
        cases htt : (g.nodes.lookup target).getD none with
        | none =>
          dsimp only
          split
          · exact dPres_addEdge _ _ _ _ hp
          · exact hp
        | some ta =>
          have hlk : g.nodes.lookup source = some (some sa) := by
            cases htmp : g.nodes.lookup source with
            | none => rw [htmp] at hs; simp at hs
            | some v =>
              rw [htmp] at hs
              simp only [Option.getD_some] at hs
              rw [hs]
          have hmem : (source, some sa) ∈ g.nodes := lookup_mem _ _ _ hlk
          have hcls := hp.2 source sa hmem
          have hne := extract_domain_type_ne_empty source
          have hd : ¬ sa.domain = "" := by
            rw [hcls.1]
            exact hne.1
          have hc : ¬ sa.concept = "" := by
            rw [hcls.2]
            exact hne.2
          have hself : (g.nodes.map fun kv =>
              if kv.1 = source then (kv.1, some sa) else kv) = g.nodes := by
            have := List.map_congr_left (l := g.nodes)
              (f := fun kv => if kv.1 = source then (kv.1, some sa) else kv)
              (g := id) ?side
            · rw [this, List.map_id]
            · intro kv hkv
              by_cases hk : kv.1 = source
              · have hv : kv.2 = some sa := by
                  refine nodup_keys_unique g.nodes source kv.2 (some sa) hp.1 ?_ hmem
                  rw [← hk]
                  exact hkv
                dsimp only
                rw [if_pos hk, ← hv]
                rfl
              · simp [hk]
          dsimp only
          have e1 : ¬(sa.domain = "" ∧ ta.domain ≠ "") := fun h => hd h.1
          rw [if_neg e1]
          have e2 : ¬(sa.concept = "" ∧ ta.concept ≠ "") := fun h => hc h.1
          rw [if_neg e2, hself]
          split
          · exact dPres_addEdge _ _ _ _ hp
          · exact hp
    · exact hp
  · exact hp

theorem dPres_pass1 (st : DomainX.DGraph × DomainX.SWGraph) (f : DomainX.YRecord)
    (hp : (st.1.nodes.map Prod.fst).Nodup ∧ ∀ m b, (m, some b) ∈ st.1.nodes →
      b.domain = (Enhanced.extract_domain_type m).1 ∧
      b.concept = (Enhanced.extract_domain_type m).2) :
    (((DomainX.pass1 st f).1.nodes.map Prod.fst).Nodup ∧
      ∀ m b, (m, some b) ∈ (DomainX.pass1 st f).1.nodes →
        b.domain = (Enhanced.extract_domain_type m).1 ∧
        b.concept = (Enhanced.extract_domain_type m).2) := by
  unfold DomainX.pass1
  cases f.name with
  | none => exact hp
  | some class_name =>
    dsimp only
    exact dPres_addNode st.1 class_name _ ⟨rfl, rfl⟩ hp

theorem dPres_pass2Method (cn : String) (g : DomainX.DGraph)
    (m : DomainX.YMethod)
    (hp : (g.nodes.map Prod.fst).Nodup ∧ ∀ n b, (n, some b) ∈ g.nodes →
      b.domain = (Enhanced.extract_domain_type n).1 ∧
      b.concept = (Enhanced.extract_domain_type n).2) :
    (((DomainX.pass2Method cn g m).nodes.map Prod.fst).Nodup ∧
      ∀ n b, (n, some b) ∈ (DomainX.pass2Method cn g m).nodes →
        b.domain = (Enhanced.extract_domain_type n).1 ∧
        b.concept = (Enhanced.extract_domain_type n).2) := by
  unfold DomainX.pass2Method
  simp only
  split
  · exact hp
  · split
    · split
      · refine foldl_pres (fun g : DomainX.DGraph => (g.nodes.map Prod.fst).Nodup ∧
          ∀ n b, (n, some b) ∈ g.nodes →
            b.domain = (Enhanced.extract_domain_type n).1 ∧
            b.concept = (Enhanced.extract_domain_type n).2) _ ?_ _ _ hp
        intro b x hb
        obtain ⟨rel_type, target, weight, method_name, concept⟩ := x
        exact dPres_addEdge _ _ _ _ hb
      · exact hp
    · exact hp

theorem dPres_pass2 (g : DomainX.DGraph) (f : DomainX.YRecord)
    (hp : (g.nodes.map Prod.fst).Nodup ∧ ∀ n b, (n, some b) ∈ g.nodes →
      b.domain = (Enhanced.extract_domain_type n).1 ∧
      b.concept = (Enhanced.extract_domain_type n).2) :
    (((DomainX.pass2 g f).nodes.map Prod.fst).Nodup ∧
      ∀ n b, (n, some b) ∈ (DomainX.pass2 g f).nodes →
        b.domain = (Enhanced.extract_domain_type n).1 ∧
        b.concept = (Enhanced.extract_domain_type n).2) := by
  unfold DomainX.pass2
  cases f.name with
  | none => exact hp
  | some cn =>
    cases f.methods with
    | none => exact hp
    | some methods =>
      exact foldl_pres _ _ (fun b x hb => dPres_pass2Method cn b x hb) methods g hp

/-- Claim C6 (amended): the third pass of `build_domain_ontology` never
changes any symbol's classification — every attributed node of the built
domain graph carries exactly the keyword classification of its own name.
The guard `not nodes[source].get('domain')` never fires because keyword
matching always assigns at least `("Other", "Unknown")`, so the
inheritance loop copies nothing; it is a single bounded loop over the
inheritance edges (no traversal, no visited set), which trivially
terminates on any input, cyclic inheritance included. -/
theorem claim_C6 (files : List DomainX.YRecord) (n : String) (a : DomainX.DNode)
    (h : (n, some a) ∈ (DomainX.build_domain_ontology files).nodes) :
    a.domain = (Enhanced.extract_domain_type n).1 ∧
      a.concept = (Enhanced.extract_domain_type n).2 := by
  have hP : (((DomainX.build_domain_ontology files).nodes.map Prod.fst).Nodup ∧
      ∀ m b, (m, some b) ∈ (DomainX.build_domain_ontology files).nodes →
        b.domain = (Enhanced.extract_domain_type m).1 ∧
        b.concept = (Enhanced.extract_domain_type m).2) := by
    unfold DomainX.build_domain_ontology
    simp only
    refine foldl_pres _ _ (fun b x hb => dPres_pass3Edge b x hb) _ _ ?_
    refine foldl_pres _ _ (fun b x hb => dPres_pass2 b x hb) _ _ ?_
    have := foldl_pres (fun st : DomainX.DGraph × DomainX.SWGraph =>
        ((st.1.nodes.map Prod.fst).Nodup ∧ ∀ m b, (m, some b) ∈ st.1.nodes →
          b.domain = (Enhanced.extract_domain_type m).1 ∧
          b.concept = (Enhanced.extract_domain_type m).2))
      DomainX.pass1 (fun b x hb => dPres_pass1 b x hb) files
      ({ nodes := [], edges := [] }, { nodes := [], edges := [] })
      ⟨List.nodup_nil, fun m b hmb => by simp at hmb⟩
    exact this
  exact hP.2 n a h

/-- Witness for claim C6 at a concrete built graph. -/
theorem claim_C6_witness :
    ((("oaFoo7"), some ({ dtype := ("Class"), domain := ("Other"),
                          concept := ("Unknown"), description := (""),
                          methods_count := 0 } :
        DomainX.DNode)) ∈ (DomainX.build_domain_ontology c6files).nodes) ∧
      (({ dtype := ("Class"), domain := ("Other"), concept := ("Unknown"),
           description := (""), methods_count := 0 } : DomainX.DNode).domain =
          (Enhanced.extract_domain_type ("oaFoo7")).1 ∧
        ({ dtype := ("Class"), domain := ("Other"), concept := ("Unknown"),
            description := (""), methods_count := 0 } : DomainX.DNode).concept =
          (Enhanced.extract_domain_type ("oaFoo7")).2) :=
  ⟨by decide, claim_C6 c6files ("oaFoo7") _ (by decide)⟩

/-- Claim C6, counterexample: `oaFoo7` is unclassified (`Other/Unknown`)
and directly inherits from `oaNet`, which is classified
`Connectivity/Net`; the claim's propagation would assign `oaFoo7` its
ancestor's classification, but the built graph leaves it
`("Other", "Unknown")`. -/
theorem claim_C6_counterexample :
    (DomainX.build_domain_ontology c6files).nodes.lookup ("oaFoo7") =
        some (some { dtype := ("Class"), domain := ("Other"),
                     concept := ("Unknown"), description := (""),
                     methods_count := 0 }) ∧
      (DomainX.build_domain_ontology c6files).nodes.lookup ("oaNet") =
        some (some { dtype := ("Class"), domain := ("Connectivity"),
                     concept := ("Net"), description := (""),
                     methods_count := 0 }) := by
  decide

/-! Lemmas for the description bound (claim C10). -/

theorem clean_description_length_le (s : String) (m : Nat) (hm : 3 ≤ m) :
    (Enhanced.clean_description s m).length ≤ m := by
  unfold Enhanced.clean_description
  split
  · simp [String.length]
  · simp only
    split
    · next hlong =>
      show ((pyStripL (collapseWs s.data)).take (m - 3) ++ ("...").data).length ≤ m
      rw [List.length_append, List.length_take]
      have h3 : ("...").data.length = 3 := by decide
      rw [h3]
      omega
    · next hshort =>
      show (pyStripL (collapseWs s.data)).length ≤ m
      omega

theorem descBound_addNode (g : Enhanced.EGraph) (n : String) (a : Enhanced.ENode)
    (ha : a.description.length ≤ 200)
    (h : ∀ m b, (m, some b) ∈ g.nodes → b.description.length ≤ 200) :
    ∀ m b, (m, some b) ∈ (Enhanced.addNode g n a).nodes →
      b.description.length ≤ 200 := by
  unfold Enhanced.addNode
  split
  · intro m b hmb
    simp only [List.mem_map] at hmb
    obtain ⟨kv, hkv, heq⟩ := hmb
    by_cases hk : kv.1 = n
    · rw [if_pos hk] at heq
      injection heq with h1 h2
      injection h2 with h2
      rw [← h2]
      exact ha
    · rw [if_neg hk] at heq
      exact h m b (heq ▸ hkv)
  · intro m b hmb
    rcases List.mem_append.mp hmb with hm | hm
    · exact h m b hm
    · simp only [List.mem_singleton, Prod.mk.injEq] at hm
      obtain ⟨rfl, hb⟩ := hm
      injection hb with hb
      rw [hb]
      exact ha

theorem descBound_addClassNode (g : Enhanced.EGraph) (n : String)
    (d : Crossref.MergedInfo)
    (h : ∀ m b, (m, some b) ∈ g.nodes → b.description.length ≤ 200) :
    ∀ m b, (m, some b) ∈ (Enhanced.addClassNode g n d).nodes →
      b.description.length ≤ 200 := by
  unfold Enhanced.addClassNode
  exact descBound_addNode g n _
    (clean_description_length_le d.description 200 (by decide)) h

/-- Claim C10: every node of a built graph carries a bounded description.
The enhanced domain graph builder stores `clean_description(·, 200)` on
every node, a string of at most 200 characters; a cleaned description
longer than 200 characters is truncated to its first 197 characters plus
`"..."`, and the design graph build's `clean_description` truncates at
300 to 297 plus `"..."` — so downstream consumers never receive the full
text of a long description on a node. -/
theorem claim_C10 :
    (∀ (input : List (String × Crossref.MergedInfo)) (n : String)
        (a : Enhanced.ENode),
        (n, some a) ∈ (Enhanced.build_enhanced_domain_ontology input).nodes →
          a.description.length ≤ 200) ∧
      (∀ s : String, 200 < (pyStripL (collapseWs s.data)).length →
        Enhanced.clean_description s 200 =
          ⟨(pyStripL (collapseWs s.data)).take 197 ++ ("...").data⟩) ∧
      (∀ s : String, (BuildOntology.clean_description s).length ≤ 300 ∧
        (300 < (pyStripL (collapseWs s.data)).length →
          BuildOntology.clean_description s =
            ⟨(pyStripL (collapseWs s.data)).take 297 ++ ("...").data⟩)) := by
  refine ⟨?_, ?_, ?_⟩
  · intro input n a h
    revert h
    unfold Enhanced.build_enhanced_domain_ontology
    simp only
    intro h
    have h2 : (((dictOfList input).foldl
        (fun g kv => Enhanced.addClassRels g kv.1 kv.2)
        ((dictOfList input).foldl (fun g kv => Enhanced.addClassNode g kv.1 kv.2)
          { nodes := [], edges := [] }))).nodes =
        (((dictOfList input).foldl
          (fun g kv => Enhanced.addClassNode g kv.1 kv.2)
          { nodes := [], edges := [] } : Enhanced.EGraph)).nodes :=
      foldl_nodes_eq _
        (fun (g : Enhanced.EGraph) (kv : String × Crossref.MergedInfo) =>
          addClassRels_nodes g kv.1 kv.2) _ _
    rw [h2] at h
    have hP := foldl_pres
      (fun g : Enhanced.EGraph =>
        ∀ m b, (m, some b) ∈ g.nodes → b.description.length ≤ 200)
      (fun g kv => Enhanced.addClassNode g kv.1 kv.2)
      (fun b x hb => descBound_addClassNode b x.1 x.2 hb)
      (dictOfList input) { nodes := [], edges := [] }
      (fun m b hmb => by simp at hmb)
    exact hP n a h
  · intro s h
    unfold Enhanced.clean_description
    rw [if_neg]
    · simp only
      rw [if_pos h]
    · intro hs
      rw [hs] at h
      revert h
      decide
  · intro s
    constructor
    · unfold BuildOntology.clean_description
      split
      · simp [String.length]
      · simp only
        split
        · next hlong =>
          show ((pyStripL (collapseWs s.data)).take 297 ++ ("...").data).length ≤ 300
          rw [List.length_append, List.length_take]
          have h3 : ("...").data.length = 3 := by decide
          rw [h3]
          omega
        · next hshort =>
          show (pyStripL (collapseWs s.data)).length ≤ 300
          omega
    · intro h
      unfold BuildOntology.clean_description
      rw [if_neg]
      · simp only
        rw [if_pos h]
      · intro hs
        rw [hs] at h
        revert h
        decide

set_option maxRecDepth 40000 in
/-- Witness for claim C10: a symbol with a 250-character raw description
is stored with a 200-character truncated description, and the two
truncation shapes are exhibited at 250- and 350-character inputs. -/
theorem claim_C10_witness :
    ((("oaA"), some ({ label := ("A"), ntype := ("Class"), domain := ("Other"),
                       concept := ("Unknown"),
                       description := ⟨List.replicate 197 ('x') ++ ("...").data⟩,
                       methods_count := 0 } : Enhanced.ENode)) ∈
        (Enhanced.build_enhanced_domain_ontology c10input).nodes ∧
      ({ label := ("A"), ntype := ("Class"), domain := ("Other"),
         concept := ("Unknown"),
         description := ⟨List.replicate 197 ('x') ++ ("...").data⟩,
         methods_count := 0 } : Enhanced.ENode).description.length ≤ 200) ∧
      (200 < (pyStripL (collapseWs (⟨List.replicate 250 ('x')⟩ : String).data)).length ∧
        Enhanced.clean_description (⟨List.replicate 250 ('x')⟩ : String) 200 =
          ⟨(pyStripL (collapseWs (⟨List.replicate 250 ('x')⟩ : String).data)).take 197 ++
            ("...").data⟩) ∧
      (300 < (pyStripL (collapseWs (⟨List.replicate 350 ('x')⟩ : String).data)).length ∧
        BuildOntology.clean_description (⟨List.replicate 350 ('x')⟩ : String) =
          ⟨(pyStripL (collapseWs (⟨List.replicate 350 ('x')⟩ : String).data)).take 297 ++
            ("...").data⟩) :=
  ⟨⟨by decide, claim_C10.1 c10input ("oaA") _ (by decide)⟩,
   ⟨by decide, claim_C10.2.1 _ (by decide)⟩,
   ⟨by decide, (claim_C10.2.2 _).2 (by decide)⟩⟩

/-! Lemmas for the method merge engine (claim C8). -/

theorem methodKey_apiTagged (m : Crossref.PyMethod) :
    Crossref.methodKey (Crossref.apiTagged m) = Crossref.methodKey m := by
  unfold Crossref.apiTagged Crossref.normalizeMethodRT Crossref.methodKey
  simp only
  split <;> rfl

theorem methodKey_umlTagged (m : Crossref.PyMethod) :
    Crossref.methodKey (Crossref.umlTagged m) = Crossref.methodKey m := rfl

theorem methodKey_norm (m : Crossref.PyMethod) :
    Crossref.methodKey (Crossref.normalizeMethodRT m) = Crossref.methodKey m := by
  unfold Crossref.normalizeMethodRT Crossref.methodKey
  simp only
  split <;> rfl

theorem methodKey_umlUpdate (m' ex : Crossref.PyMethod) :
    Crossref.methodKey (Crossref.umlUpdate m' ex) = Crossref.methodKey ex := rfl

theorem modifyAt_map_key {α β : Type} (f : α → α) (k : α → β)
    (hf : ∀ x, k (f x) = k x) (i : Nat) (l : List α) :
    (modifyAt f i l).map k = l.map k := by
  induction l generalizing i with
  | nil => cases i <;> rfl
  | cons x xs ih =>
    cases i with
    | zero => simp [modifyAt, hf]
    | succ n => simp [modifyAt, ih]

theorem lookup_upsert {α : Type} (l : List (String × α)) (k k' : String) (v : α) :
    (upsert l k v).lookup k' = if k' = k then some v else l.lookup k' := by
  induction l with
  | nil =>
    by_cases h : k' = k
    · simp [upsert, List.lookup, h]
    · have hb : (k' == k) = false := beq_eq_false_iff_ne.mpr h
      simp [upsert, List.lookup, hb, h]
  | cons kv rest ih =>
    obtain ⟨k1, v1⟩ := kv
    by_cases h1 : k1 = k
    · by_cases h2 : k' = k1
      · have hb : (k' == k1) = true := beq_iff_eq.mpr h2
        have h3 : k' = k := h1 ▸ h2
        simp [upsert, h1, List.lookup, hb, h3]
      · have hb : (k' == k1) = false := beq_eq_false_iff_ne.mpr h2
        have h3 : ¬ k' = k := fun hc => h2 (by rw [hc, h1])
        have hb2 : (k' == k) = false := beq_eq_false_iff_ne.mpr h3
        simp [upsert, h1, List.lookup, hb, h3, hb2]
    · by_cases h2 : k' = k1
      · have hb : (k' == k1) = true := beq_iff_eq.mpr h2
        have h3 : ¬ k' = k := fun hc => h1 (by rw [← h2, hc])
        simp [upsert, h1, List.lookup, hb, h3]
      · have hb : (k' == k1) = false := beq_eq_false_iff_ne.mpr h2
        simp [upsert, h1, List.lookup, hb, ih]

theorem mergeUmlStep_pres (st : Crossref.MergeState) (m : Crossref.PyMethod)
    (h : (st.merged.map Crossref.methodKey).Nodup ∧
      ∀ k, (st.kmap.lookup k).isSome = true ↔
        k ∈ st.merged.map Crossref.methodKey) :
    (((Crossref.mergeUmlStep st m).merged.map Crossref.methodKey).Nodup ∧
      ∀ k, ((Crossref.mergeUmlStep st m).kmap.lookup k).isSome = true ↔
        k ∈ (Crossref.mergeUmlStep st m).merged.map Crossref.methodKey) := by
  unfold Crossref.mergeUmlStep
  split
  · exact h
  · split
    · next idx hidx =>
      have hkeys : (modifyAt (Crossref.umlUpdate (Crossref.normalizeMethodRT m))
          idx st.merged).map Crossref.methodKey =
          st.merged.map Crossref.methodKey :=
        modifyAt_map_key _ Crossref.methodKey
          (fun x => methodKey_umlUpdate _ x) idx st.merged
      exact ⟨by rw [hkeys]; exact h.1, fun k => by rw [hkeys]; exact h.2 k⟩
    · next hnone =>
      have hmem : Crossref.methodKey (Crossref.normalizeMethodRT m) ∉
          st.merged.map Crossref.methodKey := by
        intro hc
        have hs := (h.2 _).mpr hc
        rw [hnone] at hs
        simp at hs
      constructor
      · rw [List.map_append]
        simp only [List.map_cons, List.map_nil, methodKey_umlTagged]
        simp [List.nodup_append, h.1, hmem]
      · intro k
        rw [lookup_upsert, List.map_append]
        simp only [List.map_cons, List.map_nil, methodKey_umlTagged]
        rw [List.mem_append]
        by_cases hk : k = Crossref.methodKey (Crossref.normalizeMethodRT m)
        · simp [hk]
        · rw [if_neg hk]
          constructor
          · intro hs
            exact Or.inl ((h.2 k).mp hs)
          · intro hs
            rcases hs with hs | hs
            · exact (h.2 k).mpr hs
            · simp only [List.mem_singleton] at hs
              exact absurd hs hk

theorem mergeApiStep_keys (st : Crossref.MergeState) (m : Crossref.PyMethod) :
    (Crossref.mergeApiStep st m).merged.map Crossref.methodKey =
      if m.name.getD "" = "" then st.merged.map Crossref.methodKey
      else st.merged.map Crossref.methodKey ++ [Crossref.methodKey m] := by
  unfold Crossref.mergeApiStep
  split
  · rfl
  · rw [List.map_append]
    simp [methodKey_apiTagged]

theorem mergeApiStep_km (st : Crossref.MergeState) (m : Crossref.PyMethod)
    (h : ∀ k, (st.kmap.lookup k).isSome = true ↔
      k ∈ st.merged.map Crossref.methodKey) :
    ∀ k, ((Crossref.mergeApiStep st m).kmap.lookup k).isSome = true ↔
      k ∈ (Crossref.mergeApiStep st m).merged.map Crossref.methodKey := by
  unfold Crossref.mergeApiStep
  split
  · exact h
  · intro k
    rw [lookup_upsert, List.map_append]
    simp only [List.map_cons, List.map_nil]
    rw [List.mem_append]
    by_cases hk : k = Crossref.methodKey (Crossref.apiTagged m)
    · simp [hk]
    · rw [if_neg hk]
      constructor
      · intro hs
        exact Or.inl ((h k).mp hs)
      · intro hs
        rcases hs with hs | hs
        · exact (h k).mpr hs
        · simp only [List.mem_singleton] at hs
          exact absurd hs hk

theorem apiFold_keys (l : List Crossref.PyMethod) (st : Crossref.MergeState) :
    (l.foldl Crossref.mergeApiStep st).merged.map Crossref.methodKey =
      st.merged.map Crossref.methodKey ++
        (l.filter fun m => m.name.getD "" ≠ "").map Crossref.methodKey := by
  induction l generalizing st with
  | nil => simp
  | cons m rest ih =>
    rw [List.foldl_cons, ih, mergeApiStep_keys, List.filter_cons]
    by_cases hname : m.name.getD "" = ""
    · simp [hname]
    · simp [hname]

theorem apiFold_km (l : List Crossref.PyMethod) (st : Crossref.MergeState)
    (h : ∀ k, (st.kmap.lookup k).isSome = true ↔
      k ∈ st.merged.map Crossref.methodKey) :
    ∀ k, ((l.foldl Crossref.mergeApiStep st).kmap.lookup k).isSome = true ↔
      k ∈ (l.foldl Crossref.mergeApiStep st).merged.map Crossref.methodKey := by
  induction l generalizing st with
  | nil => exact h
  | cons m rest ih => exact ih _ (mergeApiStep_km st m h)

theorem insertByName_perm (m : Crossref.PyMethod) (l : List Crossref.PyMethod) :
    List.Perm (Crossref.insertByName m l) (m :: l) := by
  induction l with
  | nil => exact List.Perm.refl _
  | cons x xs ih =>
    unfold Crossref.insertByName
    split
    · exact List.Perm.refl _
    · exact (ih.cons x).trans (List.Perm.swap m x xs)

theorem sortByName_perm (l : List Crossref.PyMethod) :
    List.Perm (Crossref.sortByName l) l := by
  induction l with
  | nil => exact List.Perm.refl _
  | cons m rest ih =>
    unfold Crossref.sortByName
    rw [List.foldr_cons]
    exact (insertByName_perm m _).trans (ih.cons m)

/-- Claim C8 (amended): whenever the API method list itself carries no two
(truthy-name) entries with the same `(name, signature)` key, the merged
method list of a Merged Symbol never contains two entries sharing a key —
duplicate keys inside the UML list, or between the two lists, are
collapsed; but duplicate keys inside the API list survive, because every
API entry is appended to the merged list unconditionally. -/
theorem claim_C8 (api_methods uml_methods : List Crossref.PyMethod)
    (h : (((api_methods.filter fun m => m.name.getD "" ≠ "").map
      Crossref.methodKey)).Nodup) :
    ((Crossref.merge_methods api_methods uml_methods).map
      Crossref.methodKey).Nodup := by
  unfold Crossref.merge_methods
  simp only
  have hkeys := apiFold_keys api_methods { merged := [], kmap := [] }
  have hkm := apiFold_km api_methods { merged := [], kmap := [] }
    (fun k => by simp [List.lookup])
  have hstep := foldl_pres
    (fun st : Crossref.MergeState =>
      (st.merged.map Crossref.methodKey).Nodup ∧
        ∀ k, (st.kmap.lookup k).isSome = true ↔
          k ∈ st.merged.map Crossref.methodKey)
    Crossref.mergeUmlStep
    (fun b x hb => mergeUmlStep_pres b x hb)
    uml_methods
    (api_methods.foldl Crossref.mergeApiStep { merged := [], kmap := [] })
    ⟨by rw [hkeys]; simpa using h, hkm⟩
  have hperm := (sortByName_perm
    ((uml_methods.foldl Crossref.mergeUmlStep
      (api_methods.foldl Crossref.mergeApiStep
        { merged := [], kmap := [] })).merged)).map Crossref.methodKey
  exact hperm.nodup_iff.mpr hstep.1

/-- Claim C8, counterexample: an API list containing the same method entry
twice yields a merged list whose two entries share the
`(name, signature)` key `getName|getName()`. -/
theorem claim_C8_counterexample :
    (Crossref.merge_methods [c8m, c8m] []).map Crossref.methodKey =
        [("getName|getName()"), ("getName|getName()")] ∧
      ¬ ((Crossref.merge_methods [c8m, c8m] []).map Crossref.methodKey).Nodup := by
  constructor
  · decide
  · decide

/-- Claim C8, witness: a one-element API list has pairwise-distinct keys,
and the merged list built from it and a UML list carrying the same key
again has pairwise-distinct keys (the UML duplicate is collapsed). -/
theorem claim_C8_witness :
    ((([c8m].filter fun m => m.name.getD "" ≠ "").map
        Crossref.methodKey)).Nodup ∧
      ((Crossref.merge_methods [c8m] [c8m]).map Crossref.methodKey).Nodup :=
  ⟨by decide, claim_C8 [c8m] [c8m] (by decide)⟩

/-! Lemmas on whitespace collapse and stripping (claim C7). -/

theorem wsOk_mono (s : List Char) (h : wsOk true s = true) :
    wsOk false s = true := by
  cases s with
  | nil => rfl
  | cons c cs =>
    unfold wsOk at h ⊢
    split at h
    · simp at h
    · next hc =>
      rw [if_neg hc]
      exact h

theorem wsOk_collapseWsAux (s : List Char) : ∀ p, wsOk p (collapseWsAux p s) = true := by
  induction s with
  | nil => intro p; rfl
  | cons c cs ih =>
    intro p
    unfold collapseWsAux
    by_cases hc : pySpace c = true
    · rw [if_pos hc]
      cases p with
      | true => simpa using ih true
      | false => simpa [wsOk, pySpace] using ih true
    · rw [if_neg hc]
      unfold wsOk
      rw [if_neg hc]
      exact ih false

theorem collapseWsAux_id (s : List Char) : ∀ p, wsOk p s = true → collapseWsAux p s = s := by
  induction s with
  | nil => intro p _; rfl
  | cons c cs ih =>
    intro p h
    unfold wsOk at h
    unfold collapseWsAux
    split at h
    · next hc =>
      rw [if_pos hc]
      simp only [Bool.and_eq_true, Bool.not_eq_true'] at h
      obtain ⟨⟨hsp, hprev⟩, hrest⟩ := h
      rw [hprev]
      have hcs : c = ' ' := by simpa using hsp
      simp only [Bool.false_eq_true, if_false]
      rw [hcs, ih true hrest]
    · next hc =>
      rw [if_neg hc, ih false h]

theorem wsOk_dropWhile (s : List Char) (h : wsOk false s = true) :
    wsOk false (s.dropWhile pySpace) = true := by
  induction s with
  | nil => exact h
  | cons c cs ih =>
    unfold wsOk at h
    by_cases hc : pySpace c = true
    · rw [List.dropWhile_cons_of_pos hc]
      rw [if_pos hc] at h
      simp only [Bool.and_eq_true] at h
      exact ih (wsOk_mono cs h.2)
    · rw [List.dropWhile_cons_of_neg (by simp [hc])]
      unfold wsOk
      rw [if_neg hc] at h ⊢
      exact h

theorem wsOk_dropTrail (s : List Char) : ∀ p, wsOk p s = true →
    wsOk p (dropTrail s) = true := by
  induction s with
  | nil => intro p h; exact h
  | cons c cs ih =>
    intro p h
    unfold wsOk at h
    cases hr : dropTrail cs with
    | nil =>
      have hd : dropTrail (c :: cs) = if pySpace c = true then [] else [c] := by
        rw [dropTrail, hr]
      rw [hd]
      by_cases hc : pySpace c = true
      · rw [if_pos hc]
        rfl
      · rw [if_neg hc]
        unfold wsOk
        rw [if_neg hc]
        rfl
    | cons r rs =>
      have hd : dropTrail (c :: cs) = c :: (r :: rs) := by
        rw [dropTrail, hr]
      rw [hd]
      split at h
      · next hc =>
        simp only [Bool.and_eq_true, Bool.not_eq_true'] at h
        obtain ⟨⟨hsp, hprev⟩, hrest⟩ := h
        unfold wsOk
        rw [if_pos hc, hprev]
        have hres := ih true hrest
        rw [hr] at hres
        simp only [Bool.and_eq_true]
        exact ⟨⟨by simpa using hsp, by decide⟩, hres⟩
      · next hc =>
        unfold wsOk
        rw [if_neg hc]
        have hres := ih false h
        rw [hr] at hres
        exact hres

theorem prefix_dropTrail (s : List Char) : dropTrail s <+: s := by
  induction s with
  | nil => exact List.prefix_refl _
  | cons c cs ih =>
    cases hr : dropTrail cs with
    | nil =>
      have hd : dropTrail (c :: cs) = if pySpace c = true then [] else [c] := by
        rw [dropTrail, hr]
      rw [hd]
      by_cases hc : pySpace c = true
      · rw [if_pos hc]
        exact List.nil_prefix
      · rw [if_neg hc]
        exact ⟨cs, rfl⟩
    | cons r rs =>
      have hd : dropTrail (c :: cs) = c :: (r :: rs) := by
        rw [dropTrail, hr]
      rw [hd]
      rw [hr] at ih
      obtain ⟨u, hu⟩ := ih
      exact ⟨u, by rw [List.cons_append, hu]⟩

theorem dropTrail_idem (s : List Char) : dropTrail (dropTrail s) = dropTrail s := by
  induction s with
  | nil => rfl
  | cons c cs ih =>
    cases hr : dropTrail cs with
    | nil =>
      have hd : dropTrail (c :: cs) = if pySpace c = true then [] else [c] := by
        rw [dropTrail, hr]
      rw [hd]
      by_cases hc : pySpace c = true
      · rw [if_pos hc]
        rfl
      · rw [if_neg hc]
        rw [dropTrail]
        rw [if_neg hc]
        rfl
    | cons r rs =>
      rw [hr] at ih
      have hd : dropTrail (c :: cs) = c :: (r :: rs) := by
        rw [dropTrail, hr]
      rw [hd, dropTrail, ih]

theorem dropWhile_suffix_decomp (s : List Char) :
    ∃ l, s = l ++ s.dropWhile pySpace := by
  induction s with
  | nil => exact ⟨[], rfl⟩
  | cons c cs ih =>
    by_cases hc : pySpace c = true
    · rw [List.dropWhile_cons_of_pos hc]
      obtain ⟨l, hl⟩ := ih
      exact ⟨c :: l, by rw [List.cons_append, ← hl]⟩
    · rw [List.dropWhile_cons_of_neg (by simp [hc])]
      exact ⟨[], rfl⟩

theorem head_dropWhile_not (s : List Char) (c : Char) (t : List Char)
    (h : s.dropWhile pySpace = c :: t) : pySpace c = false := by
  induction s with
  | nil => simp at h
  | cons x xs ih =>
    by_cases hx : pySpace x = true
    · rw [List.dropWhile_cons_of_pos hx] at h
      exact ih h
    · rw [List.dropWhile_cons_of_neg (by simp [hx])] at h
      injection h with h1 _
      rw [← h1]
      simpa using hx

theorem dropWhile_eq_self_of_head (s : List Char)
    (h : ∀ c t, s = c :: t → pySpace c = false) :
    s.dropWhile pySpace = s := by
  cases s with
  | nil => rfl
  | cons c t =>
    rw [List.dropWhile_cons_of_neg]
    simp [h c t rfl]

theorem pyStripL_idem (s : List Char) : pyStripL (pyStripL s) = pyStripL s := by
  unfold pyStripL
  cases hz : dropTrail (s.dropWhile pySpace) with
  | nil => rfl
  | cons c t =>
    have hpre : dropTrail (s.dropWhile pySpace) <+: s.dropWhile pySpace :=
      prefix_dropTrail _
    rw [hz] at hpre
    obtain ⟨u, hu⟩ := hpre
    have hc : pySpace c = false := by
      refine head_dropWhile_not s c (t ++ u) ?_
      rw [← hu]
      rfl
    rw [dropWhile_eq_self_of_head _ (fun c' t' heq => by
      injection heq with h1 _
      rw [← h1]
      exact hc)]
    rw [← hz, dropTrail_idem]

theorem containsSub_append_of (p t l : List Char)
    (h : containsSub p t = true) : containsSub p (l ++ t) = true := by
  induction l with
  | nil => exact h
  | cons x xs ih =>
    show (p.isPrefixOf (x :: (xs ++ t)) || containsSub p (xs ++ t)) = true
    rw [ih]
    simp

theorem isPrefixOf_ext (p t u : List Char) (h : p.isPrefixOf t = true) :
    p.isPrefixOf (t ++ u) = true := by
  rw [List.isPrefixOf_iff_prefix] at h ⊢
  exact h.trans (t.prefix_append u)

theorem containsSub_ext (p t u : List Char) (h : containsSub p t = true) :
    containsSub p (t ++ u) = true := by
  induction t with
  | nil =>
    unfold containsSub at h
    simp only [List.isEmpty_iff] at h
    rw [h]
    cases u with
    | nil => rfl
    | cons c cs =>
      unfold containsSub
      simp [List.nil_prefix]
  | cons c cs ih =>
    have h' : (p.isPrefixOf (c :: cs) || containsSub p cs) = true := h
    rcases Bool.or_eq_true_iff.mp h' with h1 | h2
    · show (p.isPrefixOf ((c :: cs) ++ u) || containsSub p (cs ++ u)) = true
      rw [isPrefixOf_ext p (c :: cs) u h1]
      simp
    · show (p.isPrefixOf ((c :: cs) ++ u) || containsSub p (cs ++ u)) = true
      rw [ih h2]
      simp

theorem containsSub_of_prefix (p t s : List Char) (ht : t <+: s)
    (h : containsSub p t = true) : containsSub p s = true := by
  obtain ⟨u, hu⟩ := ht
  rw [← hu]
  exact containsSub_ext p t u h

theorem strip_containsSub (p s : List Char) (h : containsSub p s = false) :
    containsSub p (pyStripL s) = false := by
  by_contra hc
  rw [Bool.not_eq_false] at hc
  have h1 : containsSub p (s.dropWhile pySpace) = true :=
    containsSub_of_prefix p _ _ (prefix_dropTrail _) hc
  obtain ⟨l, hl⟩ := dropWhile_suffix_decomp s
  have h2 : containsSub p s = true := by
    rw [hl]
    exact containsSub_append_of p _ l h1
  rw [h2] at h
  simp at h

/-! Identity of the scrub steps on trigger-free strings (claim C7). -/

theorem replaceAllF_id (p r : List Char) (n : Nat) (s : List Char)
    (h : containsSub p s = false) : replaceAllF p r n s = s := by
  induction n generalizing s with
  | zero => cases s <;> rfl
  | succ n ih =>
    cases s with
    | nil => rfl
    | cons c cs =>
      have h' : (p.isPrefixOf (c :: cs) || containsSub p cs) = false := h
      rw [Bool.or_eq_false_iff] at h'
      rw [replaceAllF]
      rw [if_neg fun hcond => by
        have hpre := hcond.2
        rw [h'.1] at hpre
        exact absurd hpre (by decide)]
      rw [ih cs h'.2]

theorem replaceAll_id (p r s : List Char) (h : containsSub p s = false) :
    replaceAll p r s = s :=
  replaceAllF_id p r s.length s h

theorem scrub_id (p : String) (s : List Char)
    (h : containsSub p.data s = false) : Crossref.scrub p s = s :=
  replaceAllF_id p.data [] s.length s h

theorem copyrightScrubF_id (n : Nat) (s : List Char)
    (h : containsSub ("Copyright").data s = false) :
    Crossref.copyrightScrubF n s = s := by
  induction n generalizing s with
  | zero => cases s <;> rfl
  | succ n ih =>
    cases s with
    | nil => rfl
    | cons c cs =>
      have h' : (("Copyright").data.isPrefixOf (c :: cs) ||
          containsSub ("Copyright").data cs) = false := h
      rw [Bool.or_eq_false_iff] at h'
      have hcr : Crossref.crHead.isPrefixOf (c :: cs) = false := by
        by_contra hcc
        rw [Bool.not_eq_false] at hcc
        have h1 : ("Copyright").data.isPrefixOf Crossref.crHead = true := by decide
        have h2 : ("Copyright").data <+: (c :: cs) :=
          (List.isPrefixOf_iff_prefix.mp h1).trans
            (List.isPrefixOf_iff_prefix.mp hcc)
        have h3 := List.isPrefixOf_iff_prefix.mpr h2
        rw [h'.1] at h3
        exact absurd h3 (by decide)
      rw [Crossref.copyrightScrubF]
      rw [if_neg (by simp [hcr])]
      rw [ih cs h'.2]

theorem copyrightScrub_id (s : List Char)
    (h : containsSub ("Copyright").data s = false) :
    Crossref.copyrightScrub s = s :=
  copyrightScrubF_id s.length s h

/-- Under trigger-free hypotheses the crossref description clean-up is
whitespace collapse followed by strip. -/
theorem clean_eq_strip (x : String)
    (h : ∀ t ∈ scrubTriggers, containsSub t.data (collapseWs x.data) = false) :
    Crossref.clean_description x = ⟨pyStripL (collapseWs x.data)⟩ := by
  unfold Crossref.clean_description
  by_cases hx : x = ""
  · rw [if_pos hx, hx]
    rfl
  · rw [if_neg hx]
    simp only
    rw [scrub_id ("Member Function Documentation") _ (h _ (by decide))]
    rw [scrub_id ("Member Data Documentation") _ (h _ (by decide))]
    rw [scrub_id ("Protected Member Functions") _ (h _ (by decide))]
    rw [scrub_id ("Protected Attributes") _ (h _ (by decide))]
    rw [scrub_id ("Return to top of page") _ (h _ (by decide))]
    rw [copyrightScrub_id _ (h _ (by decide))]
    rw [scrub_id ("All Rights Reserved.") _ (h _ (by decide))]
    rw [scrub_id
      ("The documentation for this class was generated from the following file")
      _ (h _ (by decide))]
    rw [replaceAll_id ("&lt;").data ("<").data _ (h _ (by decide))]
    rw [replaceAll_id ("&gt;").data (">").data _ (h _ (by decide))]
    rw [replaceAll_id ("&amp;").data ("&").data _ (h _ (by decide))]

/-- Claim C7 (amended): the description normalizer is idempotent on every
input whose whitespace-collapsed form contains none of the scrub trigger
substrings (the seven literal noise patterns, `Copyright`, and the three
HTML entities).  In general idempotence fails: deleting an interior noise
pattern leaves a double space that only the second pass collapses, and
unescaping an entity can expose a new entity. -/
theorem claim_C7 (x : String)
    (h : ∀ t ∈ scrubTriggers, containsSub t.data (collapseWs x.data) = false) :
    Crossref.clean_description (Crossref.clean_description x) =
      Crossref.clean_description x := by
  have hy := clean_eq_strip x h
  have hwz : wsOk false (pyStripL (collapseWs x.data)) = true := by
    unfold pyStripL
    exact wsOk_dropTrail _ false
      (wsOk_dropWhile _ (wsOk_collapseWsAux x.data false))
  have hcz : collapseWs (pyStripL (collapseWs x.data)) =
      pyStripL (collapseWs x.data) :=
    collapseWsAux_id _ false hwz
  have hsub : ∀ t ∈ scrubTriggers,
      containsSub t.data
        (collapseWs ((⟨pyStripL (collapseWs x.data)⟩ : String)).data) = false := by
    intro t ht
    show containsSub t.data (collapseWs (pyStripL (collapseWs x.data))) = false
    rw [hcz]
    exact strip_containsSub t.data (collapseWs x.data) (h t ht)
  have h2 := clean_eq_strip (⟨pyStripL (collapseWs x.data)⟩ : String) hsub
  rw [hy, h2]
  show (⟨pyStripL (collapseWs (pyStripL (collapseWs x.data)))⟩ : String) = _
  rw [hcz, pyStripL_idem]

/-- Witness for claim C7 at a trigger-free input. -/
theorem claim_C7_witness :
    (∀ t ∈ scrubTriggers,
        containsSub t.data (collapseWs ("hello   world").data) = false) ∧
      Crossref.clean_description
          (Crossref.clean_description ("hello   world")) =
        Crossref.clean_description ("hello   world") :=
  ⟨by decide, claim_C7 ("hello   world") (by decide)⟩

/-- Claim C7, counterexample: deleting the interior scrub pattern from
`a Member Function Documentation b` leaves the double space `a  b`, which
only a second pass collapses to `a b` — so
`normalize(normalize(x)) ≠ normalize(x)`. -/
theorem claim_C7_counterexample :
    Crossref.clean_description
        (Crossref.clean_description ("a Member Function Documentation b")) ≠
      Crossref.clean_description ("a Member Function Documentation b") := by
  decide

end OaOntology
